import Mathlib

/-!
Fuzzy-matching scorer of `fo` (`src/main.cpp`).

A shallow embedding of `Candidate` (constructor, `Evaluate`, `EvaluateImpl`, `GetScore`),
of the evaluate-then-`std::stable_sort` loop of `main` and of the loop of `main` that
splits `PATH`, followed by the properties proved about them.

Modelling conventions
* `std::string` / `std::string_view` are `List Char`; `substr(0, size() - 1)` is
  `List.dropLast`, `back()` is read through `List.getLast?`.
* A `double` of this program is either the sentinel `-infinity` or an integer: the only
  arithmetic is adding the constants `3`, `-3`, `-2` and taking maxima, so every finite
  value is an integer of small magnitude and is represented exactly.  `Score` has these
  two kinds of values.
* `std::vector::operator[]` is unchecked; a read outside the vector is modelled by `none`.
  Running out of fuel is also `none`; every result proved below is of the form `some _`.
* The three recursive calls in `EvaluateImpl` are arguments of `std::max`, whose order of
  evaluation C++ leaves unspecified; the embedding runs them left to right.
* Sizes are natural numbers; the one subtraction that can wrap, `size() - 1` in `GetScore`,
  is taken modulo `2 ^ 64`, and theorems about `GetScore` assume `query.length < 2 ^ 64`.
-/

namespace Fo

/-- Values of type `double` occurring in the program: `-infinity` or an integer. -/
inductive Score where
  | negInf : Score
  | fin (v : Int) : Score
deriving DecidableEq

namespace Score

/-- Addition of doubles restricted to `Score`: `-infinity` absorbs. -/
def add : Score → Score → Score
  | fin a, fin b => fin (a + b)
  | _, _ => negInf

/-- Comparison `a < b` of doubles restricted to `Score`. -/
def blt : Score → Score → Bool
  | negInf, negInf => false
  | negInf, fin _ => true
  | fin _, negInf => false
  | fin a, fin b => decide (a < b)

/-- The function `std::max(a, b)`, which is `(a < b) ? b : a`. -/
def max (a b : Score) : Score := if blt a b then b else a

end Score

/-- The constant `Candidate::k_lowestScore`. -/
def k_lowestScore : Score := Score.negInf

/-- The data members of `Candidate` that the scorer uses: `m_filename` and `m_scoreDp`. -/
structure Candidate where
  m_filename : List Char
  m_scoreDp : List (List Score)
deriving DecidableEq

/-- The constructor `Candidate::Candidate`, given the file name of the path:
`m_scoreDp` gets `size` rows of `size` cells, all `k_lowestScore`. -/
def Candidate.new (filename : List Char) : Candidate :=
  { m_filename := filename
    m_scoreDp := List.replicate filename.length (List.replicate filename.length k_lowestScore) }

/-- Unchecked read `m[i][j]`; `none` when an index is outside its vector. -/
def readCell (m : List (List Score)) (i j : Nat) : Option Score :=
  match m[i]? with
  | none => none
  | some row => row[j]?

/-- Assignment through the reference `m[i][j]`. -/
def writeCell (m : List (List Score)) (i j : Nat) (v : Score) : List (List Score) :=
  match m[i]? with
  | none => m
  | some row => m.set i (row.set j v)

/-- The summand `(i_query.back() == i_filename.back() ? 3. : -3.)`. -/
def backBonus (i_query i_filename : List Char) : Score :=
  if i_query.getLast? = i_filename.getLast? then Score.fin 3 else Score.fin (-3)

/-- The method `Candidate::EvaluateImpl`, with the candidate passed and returned explicitly.
The first argument is fuel for the recursion.  The indices `size() - 1` are computed after
the emptiness guard, so the subtraction does not wrap. -/
def EvaluateImpl : Nat → Candidate → List Char → List Char → Option (Score × Candidate)
  | 0, _, _, _ => none
  | fuel + 1, c, i_query, i_filename =>
    if i_query.length > c.m_filename.length ∨ i_query.isEmpty ∨ i_filename.isEmpty then
      some (Score.fin 0, c)
    else
      match readCell c.m_scoreDp (i_query.length - 1) (i_filename.length - 1) with
      | none => none
      | some dp =>
        if dp ≠ k_lowestScore then some (dp, c)
        else
          match EvaluateImpl fuel c i_query i_filename.dropLast with
          | none => none
          | some (r1, c1) =>
            match EvaluateImpl fuel c1 i_query.dropLast i_filename with
            | none => none
            | some (r2, c2) =>
              match EvaluateImpl fuel c2 i_query.dropLast i_filename.dropLast with
              | none => none
              | some (r3, c3) =>
                let v := Score.max
                  (Score.max
                    (Score.max (Score.add (Score.fin (-2)) r1) (Score.add (Score.fin (-2)) r2))
                    (Score.add r3 (backBonus i_query i_filename)))
                  (Score.fin 0)
                some (v, { c3 with
                  m_scoreDp :=
                    writeCell c3.m_scoreDp (i_query.length - 1) (i_filename.length - 1) v })

/-- The method `Candidate::Evaluate`.  The recursion depth of `EvaluateImpl` is at most
the sum of the two lengths, so this fuel is never exhausted. -/
def Evaluate (c : Candidate) (i_query : List Char) : Option (Score × Candidate) :=
  EvaluateImpl (i_query.length + c.m_filename.length + 1) c i_query c.m_filename

/-- The algorithm `std::max_element` followed by the dereference of its result:
the first largest element, `none` for the empty range (dereference of `end()`). -/
def max_element : List Score → Option Score
  | [] => none
  | x :: xs => some (xs.foldl (fun largest y => if Score.blt largest y then y else largest) x)

/-- The method `Candidate::GetScore`.  The row index `i_query.size() - 1` is computed in
`size_t` arithmetic, modulo `2 ^ 64`, with no guard against the empty query. -/
def GetScore (c : Candidate) (i_query : List Char) : Option Score :=
  if i_query.length > c.m_filename.length then some k_lowestScore
  else
    match c.m_scoreDp[(i_query.length + 2 ^ 64 - 1) % 2 ^ 64]? with
    | none => none
    | some row => max_element row

/-- The comparator of the sort in `main`: `a->GetScore(query) > b->GetScore(query)`. -/
def scoreGreater (query : List Char) (a b : Candidate) : Option Bool :=
  match GetScore a query, GetScore b query with
  | some x, some y => some (Score.blt y x)
  | _, _ => none

/-- Insertion step of the stable sort: `a` preceded every element of `l` in the input and
is placed after the elements that the comparator puts before it. -/
def insertStable {α : Type} (comp : α → α → Option Bool) (a : α) : List α → Option (List α)
  | [] => some [a]
  | b :: l =>
    match comp b a with
    | none => none
    | some true =>
      match insertStable comp a l with
      | none => none
      | some r => some (b :: r)
    | some false => some (a :: b :: l)

/-- A model of `std::stable_sort(first, last, comp)` with a comparator that may fail:
stable insertion sort.  For a strict weak order the result of a stable sort is unique. -/
def stable_sort {α : Type} (comp : α → α → Option Bool) : List α → Option (List α)
  | [] => some []
  | a :: l =>
    match stable_sort comp l with
    | none => none
    | some r => insertStable comp a r

/-- The loop `for (candidate : candidates) candidate->Evaluate(query)` of `main`;
the returned scores are discarded. -/
def evaluateAll (query : List Char) : List Candidate → Option (List Candidate)
  | [] => some []
  | c :: cs =>
    match Evaluate c query with
    | none => none
    | some (_, c1) =>
      match evaluateAll query cs with
      | none => none
      | some r => some (c1 :: r)

/-- The ranking pipeline of `main`: evaluate every candidate, then stable sort by
descending `GetScore`. -/
def rank (query : List Char) (candidates : List Candidate) : Option (List Candidate) :=
  match evaluateAll query candidates with
  | none => none
  | some cs => stable_sort (scoreGreater query) cs

/-- The reference recurrence of the specification, on prefix lengths `i` of the query
and `j` of the name (characters are 1-indexed in the specification). -/
def align (query name : List Char) : Nat → Nat → Int
  | 0, _ => 0
  | _ + 1, 0 => 0
  | i + 1, j + 1 =>
    max 0 (max (align query name (i + 1) j - 2)
      (max (align query name i (j + 1) - 2)
        (align query name i j + (if query[i]? = name[j]? then 3 else -3))))
termination_by i j => i + j

/-- The value assigned to `dp` in `EvaluateImpl` from the results of the three calls. -/
def stepScore (r1 r2 r3 : Score) (q f : List Char) : Score :=
  Score.max
    (Score.max
      (Score.max (Score.add (Score.fin (-2)) r1) (Score.add (Score.fin (-2)) r2))
      (Score.add r3 (backBonus q f)))
    (Score.fin 0)

/-- Row lengths of a table. -/
def shape (m : List (List Score)) : List Nat := m.map List.length

/-- The table has as many rows as the name has characters, and every row has as many
cells. -/
def WellShaped (c : Candidate) : Prop :=
  shape c.m_scoreDp = List.replicate c.m_filename.length c.m_filename.length

/-- The value of `stepScore` on finite arguments, as an integer; `same` says whether the
two last characters are equal. -/
def stepInt (x y z : Int) (same : Bool) : Int :=
  max (max (max (-2 + x) (-2 + y)) (z + (if same then 3 else -3))) 0

/-- Every cell of the table is the sentinel or a finite value satisfying `I` at its
position. -/
def CellsOK (I : Nat → Nat → Int → Prop) (m : List (List Score)) : Prop :=
  ∀ a b s, readCell m a b = some s → s = Score.negInf ∨ ∃ x, s = Score.fin x ∧ I a b x

/-- What `I` says about the result for prefix lengths `i` and `j`: `0` when a prefix is
empty, else `I` at the cell of the two prefixes. -/
def Ret (I : Nat → Nat → Int → Prop) : Nat → Nat → Int → Prop
  | 0, _, x => x = 0
  | _ + 1, 0, x => x = 0
  | i + 1, j + 1, x => I i j x

/-- Every set cell holds the value of the reference recurrence for `query` and `name`. -/
def Consistent (query name : List Char) (m : List (List Score)) : Prop :=
  CellsOK (fun a b x => x = align query name (a + 1) (b + 1)) m

/-- The cell at row `a`, column `b` exists and holds a finite value. -/
def IsSet (m : List (List Score)) (a b : Nat) : Prop :=
  ∃ x, readCell m a b = some (Score.fin x)

/-- Below and to the left of a set cell every cell is set. -/
def DownClosed (m : List (List Score)) : Prop :=
  ∀ a b, IsSet m a b → ∀ a' b', a' ≤ a → b' ≤ b → IsSet m a' b'

/-- Memo states reachable from the freshly constructed candidate for `name` by calls of
`Evaluate` with arbitrary queries. -/
inductive Reachable (name : List Char) : Candidate → Prop
  | fresh : Reachable name (Candidate.new name)
  | step {c c' : Candidate} {v : Score} (query : List Char) :
      Reachable name c → Evaluate c query = some (v, c') → Reachable name c'

/-- The result of `n` successive calls `Evaluate(query)` on a candidate; the returned
values are discarded. -/
def evaluateTimes (query : List Char) : Nat → Candidate → Option Candidate
  | 0, c => some c
  | n + 1, c =>
    match Evaluate c query with
    | none => none
    | some (_, c1) => evaluateTimes query n c1

/-- The integer `m` is the maximum of `align(query.length, j)` over the name-prefix lengths
`j` in `1 .. name.length`. -/
def IsRowMax (query name : List Char) (m : Int) : Prop :=
  (∃ j, 1 ≤ j ∧ j ≤ name.length ∧ m = align query name query.length j) ∧
  ∀ j, 1 ≤ j → j ≤ name.length → align query name query.length j ≤ m

/-- The call `Evaluate(query)` followed by `GetScore(query)` on the resulting state: the
two returned values. -/
def evaluateThenGetScore (c : Candidate) (query : List Char) : Option (Score × Score) :=
  match Evaluate c query with
  | none => none
  | some (v, c1) =>
    match GetScore c1 query with
    | none => none
    | some g => some (v, g)

/-- The method `Candidate::EvaluateImpl` again, returning in addition the list of the index
pairs `(row, column)` at which `m_scoreDp` is accessed, in the order of the accesses; the
list is returned also when an access falls outside the table. -/
def EvaluateImplLog : Nat → Candidate → List Char → List Char →
    List (Nat × Nat) × Option (Score × Candidate)
  | 0, _, _, _ => ([], none)
  | fuel + 1, c, i_query, i_filename =>
    if i_query.length > c.m_filename.length ∨ i_query.isEmpty ∨ i_filename.isEmpty then
      ([], some (Score.fin 0, c))
    else
      match readCell c.m_scoreDp (i_query.length - 1) (i_filename.length - 1) with
      | none => ([(i_query.length - 1, i_filename.length - 1)], none)
      | some dp =>
        if dp ≠ k_lowestScore then
          ([(i_query.length - 1, i_filename.length - 1)], some (dp, c))
        else
          match EvaluateImplLog fuel c i_query i_filename.dropLast with
          | (l1, none) => ((i_query.length - 1, i_filename.length - 1) :: l1, none)
          | (l1, some (r1, c1)) =>
            match EvaluateImplLog fuel c1 i_query.dropLast i_filename with
            | (l2, none) => ((i_query.length - 1, i_filename.length - 1) :: (l1 ++ l2), none)
            | (l2, some (r2, c2)) =>
              match EvaluateImplLog fuel c2 i_query.dropLast i_filename.dropLast with
              | (l3, none) =>
                ((i_query.length - 1, i_filename.length - 1) :: (l1 ++ l2 ++ l3), none)
              | (l3, some (r3, c3)) =>
                ((i_query.length - 1, i_filename.length - 1) :: (l1 ++ l2 ++ l3),
                  some (stepScore r1 r2 r3 i_query i_filename,
                    { c3 with
                      m_scoreDp :=
                        writeCell c3.m_scoreDp (i_query.length - 1) (i_filename.length - 1)
                          (stepScore r1 r2 r3 i_query i_filename) }))

/-- The method `Candidate::Evaluate` with the list of the accesses to `m_scoreDp`. -/
def EvaluateLog (c : Candidate) (i_query : List Char) :
    List (Nat × Nat) × Option (Score × Candidate) :=
  EvaluateImplLog (i_query.length + c.m_filename.length + 1) c i_query c.m_filename

/-- The call `s.find(ch)` of `std::string`: the position of the first occurrence of `ch`,
`none` for `npos`. -/
def find : List Char → Char → Option Nat
  | [], _ => none
  | c :: cs, ch =>
    if c = ch then some 0
    else
      match find cs ch with
      | none => none
      | some k => some (k + 1)

/-- The loop of `main` that consumes `PATH`, with the list `paths` passed and returned;
`emplace_back` appends at the end.  The first argument is fuel for the iterations. -/
def pathLoop : Nat → List Char → List (List Char) → Option (List (List Char))
  | 0, _, _ => none
  | fuel + 1, PATH, paths =>
    if PATH.isEmpty then some paths
    else
      match find PATH ':' with
      | none => if !PATH.isEmpty then some (paths ++ [PATH]) else some paths
      | some delim =>
        let path := PATH.take delim
        pathLoop fuel (PATH.drop (delim + 1)) (if !path.isEmpty then paths ++ [path] else paths)

/-- The loop of `main` over `PATH`; every iteration that continues removes at least one
character, so this fuel is never exhausted. -/
def splitPATH (PATH : List Char) (paths : List (List Char)) : Option (List (List Char)) :=
  pathLoop (PATH.length + 1) PATH paths

/-- The segments named by the specification: `P` split at every `:`, the empty segments
dropped, in left-to-right order. -/
def nonEmptySegments (P : List Char) : List (List Char) :=
  (P.splitOn ':').filter (fun seg => !seg.isEmpty)

/-! ## Arithmetic of `Score` -/

theorem Score.max_fin (a b : Int) : Score.max (Score.fin a) (Score.fin b) = Score.fin (Max.max a b) := by
  unfold Score.max Score.blt
  by_cases h : a < b
  · simp [h, max_eq_right (le_of_lt h)]
  · simp [h, max_eq_left (not_lt.mp h)]

theorem Score.add_fin (a b : Int) : Score.add (Score.fin a) (Score.fin b) = Score.fin (a + b) := rfl

theorem Score.max_zero_ne_negInf (a : Score) : Score.max a (Score.fin 0) ≠ Score.negInf := by
  cases a with
  | negInf => simp [Score.max, Score.blt]
  | fin v => simp [Score.max_fin]

/-! ## Reading and writing cells -/

theorem shape_writeCell (m : List (List Score)) (i j : Nat) (v : Score) :
    shape (writeCell m i j v) = shape m := by
  unfold writeCell shape
  cases h : m[i]? with
  | none => rfl
  | some row =>
    simp only
    apply List.ext_getElem?
    intro k
    simp only [List.getElem?_map, List.getElem?_set]
    by_cases hk : i = k
    · subst hk
      have hi : i < m.length := by
        by_contra hc
        rw [List.getElem?_eq_none (not_lt.mp hc)] at h
        exact Option.noConfusion h
      simp [hi, h]
    · simp [hk]

theorem readCell_eq_of_shape {m1 m2 : List (List Score)} (h : shape m1 = shape m2) (a b : Nat) :
    (readCell m1 a b).isSome = (readCell m2 a b).isSome := by
  have hk : (shape m1)[a]? = (shape m2)[a]? := by rw [h]
  unfold shape at hk
  simp only [List.getElem?_map] at hk
  unfold readCell
  cases h1 : m1[a]? with
  | none =>
    cases h2 : m2[a]? with
    | none => rfl
    | some r2 => rw [h1, h2] at hk; simp at hk
  | some r1 =>
    cases h2 : m2[a]? with
    | none => rw [h1, h2] at hk; simp at hk
    | some r2 =>
      rw [h1, h2] at hk
      simp only [Option.map_some', Option.some.injEq] at hk
      simp only
      by_cases hb : b < r1.length
      · have hb2 : b < r2.length := hk ▸ hb
        simp [List.getElem?_eq_getElem hb, List.getElem?_eq_getElem hb2]
      · have hb2 : ¬ b < r2.length := hk ▸ hb
        simp [List.getElem?_eq_none (not_lt.mp hb), List.getElem?_eq_none (not_lt.mp hb2)]

theorem readCell_writeCell_same {m : List (List Score)} {i j : Nat} {s : Score}
    (h : readCell m i j = some s) (v : Score) : readCell (writeCell m i j v) i j = some v := by
  unfold readCell at h
  unfold writeCell readCell
  cases hr : m[i]? with
  | none => rw [hr] at h; exact Option.noConfusion h
  | some row =>
    rw [hr] at h
    simp only at h
    have hi : i < m.length := by
      by_contra hc
      rw [List.getElem?_eq_none (not_lt.mp hc)] at hr
      exact Option.noConfusion hr
    have hj : j < row.length := by
      by_contra hc
      rw [List.getElem?_eq_none (not_lt.mp hc)] at h
      exact Option.noConfusion h
    simp [List.getElem?_set, hi, hj]

theorem readCell_writeCell_ne (m : List (List Score)) {i j a b : Nat} (v : Score)
    (h : a ≠ i ∨ b ≠ j) : readCell (writeCell m i j v) a b = readCell m a b := by
  unfold writeCell
  cases hr : m[i]? with
  | none => rfl
  | some row =>
    simp only
    unfold readCell
    by_cases ha : a = i
    · subst ha
      have hb : b ≠ j := by
        rcases h with h | h
        · exact absurd rfl h
        · exact h
      have hi : a < m.length := by
        by_contra hc
        rw [List.getElem?_eq_none (not_lt.mp hc)] at hr
        exact Option.noConfusion hr
      simp [List.getElem?_set, hi, hr, Ne.symm hb]
    · simp [List.getElem?_set, Ne.symm ha]

/-! ## Unfolding `EvaluateImpl` -/

theorem EvaluateImpl_guard (fuel : Nat) (c : Candidate) (q f : List Char)
    (h : c.m_filename.length < q.length ∨ q = [] ∨ f = []) :
    EvaluateImpl (fuel + 1) c q f = some (Score.fin 0, c) := by
  rw [EvaluateImpl]
  have h2 : q.length > c.m_filename.length ∨ q.isEmpty = true ∨ f.isEmpty = true := by
    simpa [List.isEmpty_iff] using h
  rw [if_pos h2]

theorem EvaluateImpl_inv {fuel : Nat} {c : Candidate} {q f : List Char} {v : Score}
    {c' : Candidate} (h : EvaluateImpl (fuel + 1) c q f = some (v, c')) :
    ((c.m_filename.length < q.length ∨ q = [] ∨ f = []) ∧ v = Score.fin 0 ∧ c' = c) ∨
    (¬ (c.m_filename.length < q.length ∨ q = [] ∨ f = []) ∧
      readCell c.m_scoreDp (q.length - 1) (f.length - 1) = some v ∧ v ≠ Score.negInf ∧ c' = c) ∨
    (¬ (c.m_filename.length < q.length ∨ q = [] ∨ f = []) ∧
      readCell c.m_scoreDp (q.length - 1) (f.length - 1) = some Score.negInf ∧
      ∃ r1 c1 r2 c2 r3 c3,
        EvaluateImpl fuel c q f.dropLast = some (r1, c1) ∧
        EvaluateImpl fuel c1 q.dropLast f = some (r2, c2) ∧
        EvaluateImpl fuel c2 q.dropLast f.dropLast = some (r3, c3) ∧
        v = stepScore r1 r2 r3 q f ∧
        c' = { c3 with m_scoreDp := writeCell c3.m_scoreDp (q.length - 1) (f.length - 1) v }) := by
  rw [EvaluateImpl] at h
  by_cases hg : c.m_filename.length < q.length ∨ q = [] ∨ f = []
  · have h2 : q.length > c.m_filename.length ∨ q.isEmpty = true ∨ f.isEmpty = true := by
      simpa [List.isEmpty_iff] using hg
    rw [if_pos h2] at h
    simp only [Option.some.injEq, Prod.mk.injEq] at h
    exact Or.inl ⟨hg, h.1.symm, h.2.symm⟩
  · have h2 : ¬ (q.length > c.m_filename.length ∨ q.isEmpty = true ∨ f.isEmpty = true) := by
      simpa [List.isEmpty_iff] using hg
    rw [if_neg h2] at h
    right
    cases hr : readCell c.m_scoreDp (q.length - 1) (f.length - 1) with
    | none => rw [hr] at h; exact Option.noConfusion h
    | some dp =>
      rw [hr] at h
      simp only at h
      by_cases hdp : dp = Score.negInf
      · right
        subst hdp
        simp only [k_lowestScore, ne_eq, not_true_eq_false, if_false] at h
        cases h1 : EvaluateImpl fuel c q f.dropLast with
        | none => rw [h1] at h; exact Option.noConfusion h
        | some p1 =>
          obtain ⟨r1, c1⟩ := p1
          rw [h1] at h
          simp only at h
          cases h2 : EvaluateImpl fuel c1 q.dropLast f with
          | none => rw [h2] at h; exact Option.noConfusion h
          | some p2 =>
            obtain ⟨r2, c2⟩ := p2
            rw [h2] at h
            simp only at h
            cases h3 : EvaluateImpl fuel c2 q.dropLast f.dropLast with
            | none => rw [h3] at h; exact Option.noConfusion h
            | some p3 =>
              obtain ⟨r3, c3⟩ := p3
              rw [h3] at h
              simp only [Option.some.injEq, Prod.mk.injEq] at h
              obtain ⟨hv, hc⟩ := h
              subst hv
              exact ⟨hg, rfl, r1, c1, r2, c2, r3, c3, rfl, h2, h3, rfl, hc.symm⟩
      · left
        have hne : dp ≠ k_lowestScore := hdp
        rw [if_pos hne] at h
        simp only [Option.some.injEq, Prod.mk.injEq] at h
        exact ⟨hg, by rw [h.1], by rw [← h.1]; exact hdp, h.2.symm⟩

theorem EvaluateImpl_hit (fuel : Nat) {c : Candidate} {q f : List Char} {dp : Score}
    (hg : ¬ (c.m_filename.length < q.length ∨ q = [] ∨ f = []))
    (hr : readCell c.m_scoreDp (q.length - 1) (f.length - 1) = some dp)
    (hdp : dp ≠ Score.negInf) : EvaluateImpl (fuel + 1) c q f = some (dp, c) := by
  rw [EvaluateImpl]
  have h2 : ¬ (q.length > c.m_filename.length ∨ q.isEmpty = true ∨ f.isEmpty = true) := by
    simpa [List.isEmpty_iff] using hg
  rw [if_neg h2, hr]
  have hne : dp ≠ k_lowestScore := hdp
  simp only [if_pos hne]

theorem EvaluateImpl_miss {fuel : Nat} {c : Candidate} {q f : List Char}
    {r1 r2 r3 : Score} {c1 c2 c3 : Candidate}
    (hg : ¬ (c.m_filename.length < q.length ∨ q = [] ∨ f = []))
    (hr : readCell c.m_scoreDp (q.length - 1) (f.length - 1) = some Score.negInf)
    (h1 : EvaluateImpl fuel c q f.dropLast = some (r1, c1))
    (h2 : EvaluateImpl fuel c1 q.dropLast f = some (r2, c2))
    (h3 : EvaluateImpl fuel c2 q.dropLast f.dropLast = some (r3, c3)) :
    EvaluateImpl (fuel + 1) c q f =
      some (stepScore r1 r2 r3 q f,
        { c3 with
          m_scoreDp :=
            writeCell c3.m_scoreDp (q.length - 1) (f.length - 1) (stepScore r1 r2 r3 q f) }) := by
  rw [EvaluateImpl]
  have hg2 : ¬ (q.length > c.m_filename.length ∨ q.isEmpty = true ∨ f.isEmpty = true) := by
    simpa [List.isEmpty_iff] using hg
  rw [if_neg hg2, hr]
  simp only [k_lowestScore, ne_eq, not_true_eq_false, if_false, h1, h2, h3, stepScore]

/-! ## Frame properties of `EvaluateImpl`, valid in every memo state -/

theorem EvaluateImpl_frame : ∀ (fuel : Nat) (c : Candidate) (q f : List Char) (v : Score)
    (c' : Candidate), EvaluateImpl fuel c q f = some (v, c') →
    c'.m_filename = c.m_filename ∧ shape c'.m_scoreDp = shape c.m_scoreDp ∧
    (∀ a b, readCell c.m_scoreDp a b ≠ some Score.negInf →
      readCell c'.m_scoreDp a b = readCell c.m_scoreDp a b) ∧
    (∀ a b, q.length ≤ a ∨ f.length ≤ b →
      readCell c'.m_scoreDp a b = readCell c.m_scoreDp a b) ∧
    v ≠ Score.negInf ∧
    (¬ (c.m_filename.length < q.length ∨ q = [] ∨ f = []) →
      readCell c'.m_scoreDp (q.length - 1) (f.length - 1) = some v) := by
  intro fuel
  induction fuel with
  | zero => intro c q f v c' h; simp [EvaluateImpl] at h
  | succ fuel ih =>
    intro c q f v c' h
    rcases EvaluateImpl_inv h with ⟨hg, hv, hc⟩ | ⟨hg, hr, hv, hc⟩ | ⟨hg, hr, r1, c1, r2, c2, r3, c3, h1, h2, h3, hv, hc⟩
    · subst hc
      refine ⟨rfl, rfl, fun _ _ _ => rfl, fun _ _ _ => rfl, ?_, fun hn => absurd hg hn⟩
      rw [hv]; simp
    · subst hc
      exact ⟨rfl, rfl, fun _ _ _ => rfl, fun _ _ _ => rfl, hv, fun _ => hr⟩
    · obtain ⟨n1, s1, fs1, fo1, -, -⟩ := ih c q f.dropLast r1 c1 h1
      obtain ⟨n2, s2, fs2, fo2, -, -⟩ := ih c1 q.dropLast f r2 c2 h2
      obtain ⟨n3, s3, fs3, fo3, -, -⟩ := ih c2 q.dropLast f.dropLast r3 c3 h3
      have hq : q ≠ [] := fun e => hg (Or.inr (Or.inl e))
      have hf : f ≠ [] := fun e => hg (Or.inr (Or.inr e))
      have hql : 0 < q.length := List.length_pos.mpr hq
      have hfl : 0 < f.length := List.length_pos.mpr hf
      have hvne : v ≠ Score.negInf := by rw [hv]; exact Score.max_zero_ne_negInf _
      have hshape : shape c3.m_scoreDp = shape c.m_scoreDp := by rw [s3, s2, s1]
      subst hc
      refine ⟨by rw [← n1, ← n2, ← n3], ?_, ?_, ?_, hvne, ?_⟩
      · simp only [shape_writeCell]; exact hshape
      · intro a b hab
        have e1 := fs1 a b hab
        have e2 := fs2 a b (by rw [e1]; exact hab)
        have e3 := fs3 a b (by rw [e2, e1]; exact hab)
        have hne : a ≠ q.length - 1 ∨ b ≠ f.length - 1 := by
          by_contra hc
          push_neg at hc
          rw [hc.1, hc.2] at hab
          exact hab hr
        simp only
        rw [readCell_writeCell_ne _ _ hne, e3, e2, e1]
      · intro a b hab
        have e1 := fo1 a b (by rcases hab with h | h; exact Or.inl h; right; simp; omega)
        have e2 := fo2 a b (by rcases hab with h | h; left; simp; omega; exact Or.inr h)
        have e3 := fo3 a b (by rcases hab with h | h; left; simp; omega; right; simp; omega)
        have hne : a ≠ q.length - 1 ∨ b ≠ f.length - 1 := by omega
        simp only
        rw [readCell_writeCell_ne _ _ hne, e3, e2, e1]
      · intro _
        have hsome : (readCell c3.m_scoreDp (q.length - 1) (f.length - 1)).isSome = true := by
          rw [readCell_eq_of_shape hshape, hr]; rfl
        obtain ⟨s, hs⟩ := Option.isSome_iff_exists.mp hsome
        exact readCell_writeCell_same hs v

/-! ## Well-shaped tables: `EvaluateImpl` returns -/

theorem WellShaped_new (name : List Char) : WellShaped (Candidate.new name) := by
  simp [WellShaped, Candidate.new, shape]

theorem WellShaped_read {c : Candidate} (hw : WellShaped c) {a b : Nat}
    (ha : a < c.m_filename.length) (hb : b < c.m_filename.length) :
    ∃ s, readCell c.m_scoreDp a b = some s := by
  have hk : (shape c.m_scoreDp)[a]? = some c.m_filename.length := by
    rw [hw]; simp [List.getElem?_replicate, ha]
  unfold shape at hk
  simp only [List.getElem?_map] at hk
  unfold readCell
  cases hr : c.m_scoreDp[a]? with
  | none => rw [hr] at hk; simp at hk
  | some row =>
    rw [hr] at hk
    simp only [Option.map_some', Option.some.injEq] at hk
    simp only
    have hb2 : b < row.length := by omega
    exact ⟨row[b], List.getElem?_eq_getElem hb2⟩

theorem WellShaped_of_frame {c c' : Candidate} (hw : WellShaped c)
    (hn : c'.m_filename = c.m_filename) (hs : shape c'.m_scoreDp = shape c.m_scoreDp) :
    WellShaped c' := by
  unfold WellShaped at *
  rw [hs, hn, hw]

theorem EvaluateImpl_wellShaped {fuel : Nat} {c c' : Candidate} {q f : List Char} {v : Score}
    (hw : WellShaped c) (h : EvaluateImpl fuel c q f = some (v, c')) : WellShaped c' := by
  obtain ⟨hn, hs, -⟩ := EvaluateImpl_frame fuel c q f v c' h
  exact WellShaped_of_frame hw hn hs

theorem EvaluateImpl_returns : ∀ (fuel : Nat) (c : Candidate) (q f : List Char),
    WellShaped c → f.length ≤ c.m_filename.length → q.length + f.length < fuel →
    ∃ v c', EvaluateImpl fuel c q f = some (v, c') := by
  intro fuel
  induction fuel with
  | zero => intro c q f _ _ h; omega
  | succ fuel ih =>
    intro c q f hw hf hfuel
    by_cases hg : c.m_filename.length < q.length ∨ q = [] ∨ f = []
    · exact ⟨_, _, EvaluateImpl_guard fuel c q f hg⟩
    · have hq : q ≠ [] := fun e => hg (Or.inr (Or.inl e))
      have hfne : f ≠ [] := fun e => hg (Or.inr (Or.inr e))
      have hql : 0 < q.length := List.length_pos.mpr hq
      have hfl : 0 < f.length := List.length_pos.mpr hfne
      have hqn : q.length ≤ c.m_filename.length := by
        by_contra hc; exact hg (Or.inl (not_le.mp hc))
      obtain ⟨dp, hr⟩ := WellShaped_read hw (show q.length - 1 < c.m_filename.length by omega)
        (show f.length - 1 < c.m_filename.length by omega)
      by_cases hdp : dp = Score.negInf
      · subst hdp
        obtain ⟨r1, c1, h1⟩ := ih c q f.dropLast hw (by simp; omega) (by simp; omega)
        have hn1 := (EvaluateImpl_frame _ _ _ _ _ _ h1).1
        have hw1 := EvaluateImpl_wellShaped hw h1
        obtain ⟨r2, c2, h2⟩ := ih c1 q.dropLast f hw1 (by rw [hn1]; exact hf) (by simp; omega)
        have hn2 := (EvaluateImpl_frame _ _ _ _ _ _ h2).1
        have hw2 := EvaluateImpl_wellShaped hw1 h2
        obtain ⟨r3, c3, h3⟩ := ih c2 q.dropLast f.dropLast hw2 (by rw [hn2, hn1]; simp; omega)
          (by simp; omega)
        exact ⟨_, _, EvaluateImpl_miss hg hr h1 h2 h3⟩
      · exact ⟨_, _, EvaluateImpl_hit fuel hg hr hdp⟩

theorem Evaluate_returns (c : Candidate) (q : List Char) (hw : WellShaped c) :
    ∃ v c', Evaluate c q = some (v, c') :=
  EvaluateImpl_returns _ c q c.m_filename hw (le_refl _) (by omega)

/-! ## Invariants on the values of the cells -/

theorem take_succ_dropLast {l : List Char} {i : Nat} (h : i < l.length) :
    (l.take (i + 1)).dropLast = l.take i := by
  rw [List.take_succ, List.getElem?_eq_getElem h]
  exact List.dropLast_concat

theorem take_succ_getLast? {l : List Char} {i : Nat} (h : i < l.length) :
    (l.take (i + 1)).getLast? = l[i]? := by
  rw [List.take_succ, List.getElem?_eq_getElem h]
  exact List.getLast?_concat _

theorem stepScore_fin (x y z : Int) (q f : List Char) :
    stepScore (Score.fin x) (Score.fin y) (Score.fin z) q f =
      Score.fin (stepInt x y z (decide (q.getLast? = f.getLast?))) := by
  unfold stepScore stepInt backBonus
  by_cases h : q.getLast? = f.getLast?
  · simp [h, Score.add_fin, Score.max_fin]
  · simp [h, Score.add_fin, Score.max_fin]

theorem EvaluateImpl_cells (Q N : List Char) (I : Nat → Nat → Int → Prop)
    (hstep : ∀ i j, i < Q.length → i < N.length → j < N.length → ∀ x y z,
      Ret I (i + 1) j x → Ret I i (j + 1) y → Ret I i j z →
      I i j (stepInt x y z (decide (Q[i]? = N[j]?)))) :
    ∀ (fuel i j : Nat) (c : Candidate) (v : Score) (c' : Candidate),
      c.m_filename = N → i ≤ Q.length → i ≤ N.length → j ≤ N.length →
      CellsOK I c.m_scoreDp →
      EvaluateImpl fuel c (Q.take i) (N.take j) = some (v, c') →
      ∃ x, v = Score.fin x ∧ Ret I i j x ∧ CellsOK I c'.m_scoreDp := by
  intro fuel
  induction fuel with
  | zero => intro i j c v c' _ _ _ _ _ h; simp [EvaluateImpl] at h
  | succ fuel ih =>
    intro i j c v c' hN hiQ hiN hjN hok h
    have hlq : (Q.take i).length = i := by simp [hiQ]
    have hlf : (N.take j).length = j := by simp [hjN]
    rcases EvaluateImpl_inv h with ⟨hg, hv, hc⟩ | ⟨hg, hr, hv, hc⟩ |
      ⟨hg, hr, r1, c1, r2, c2, r3, c3, h1, h2, h3, hv, hc⟩
    · subst hc
      refine ⟨0, hv, ?_, hok⟩
      rw [hlq, hN, List.take_eq_nil_iff, List.take_eq_nil_iff] at hg
      have hz : i = 0 ∨ j = 0 := by
        rcases hg with hg | hg | hg
        · omega
        · rcases hg with hg | hg
          · exact Or.inl hg
          · subst hg; left; simpa using hiQ
        · rcases hg with hg | hg
          · exact Or.inr hg
          · subst hg; left; simpa using hiN
      rcases hz with hz | hz
      · subst hz; simp [Ret]
      · subst hz; cases i <;> simp [Ret]
    · subst hc
      have hi : 0 < i := by
        rcases Nat.eq_zero_or_pos i with e | e
        · exact absurd (Or.inr (Or.inl (by simp [e]))) hg
        · exact e
      have hj : 0 < j := by
        rcases Nat.eq_zero_or_pos j with e | e
        · exact absurd (Or.inr (Or.inr (by simp [e]))) hg
        · exact e
      obtain ⟨i, rfl⟩ := Nat.exists_eq_succ_of_ne_zero (Nat.pos_iff_ne_zero.mp hi)
      obtain ⟨j, rfl⟩ := Nat.exists_eq_succ_of_ne_zero (Nat.pos_iff_ne_zero.mp hj)
      rw [hlq, hlf] at hr
      simp only [Nat.succ_eq_add_one, Nat.add_sub_cancel] at hr
      rcases hok _ _ _ hr with e | ⟨x, e, hx⟩
      · exact absurd e hv
      · exact ⟨x, e, hx, hok⟩
    · have hi : 0 < i := by
        rcases Nat.eq_zero_or_pos i with e | e
        · exact absurd (Or.inr (Or.inl (by simp [e]))) hg
        · exact e
      have hj : 0 < j := by
        rcases Nat.eq_zero_or_pos j with e | e
        · exact absurd (Or.inr (Or.inr (by simp [e]))) hg
        · exact e
      obtain ⟨i, rfl⟩ := Nat.exists_eq_succ_of_ne_zero (Nat.pos_iff_ne_zero.mp hi)
      obtain ⟨j, rfl⟩ := Nat.exists_eq_succ_of_ne_zero (Nat.pos_iff_ne_zero.mp hj)
      simp only [Nat.succ_eq_add_one] at *
      have hiQ2 : i < Q.length := by omega
      have hjN2 : j < N.length := by omega
      rw [take_succ_dropLast hjN2] at h1 h3
      rw [take_succ_dropLast hiQ2] at h2 h3
      obtain ⟨x, hx, hrx, ok1⟩ := ih (i + 1) j c r1 c1 hN hiQ hiN (by omega) hok h1
      have hN1 : c1.m_filename = N := by rw [(EvaluateImpl_frame _ _ _ _ _ _ h1).1, hN]
      obtain ⟨y, hy, hry, ok2⟩ := ih i (j + 1) c1 r2 c2 hN1 (by omega) (by omega) hjN ok1 h2
      have hN2 : c2.m_filename = N := by rw [(EvaluateImpl_frame _ _ _ _ _ _ h2).1, hN1]
      obtain ⟨z, hz, hrz, ok3⟩ := ih i j c2 r3 c3 hN2 (by omega) (by omega) (by omega) ok2 h3
      subst hx hy hz
      rw [stepScore_fin, take_succ_getLast? hiQ2, take_succ_getLast? hjN2] at hv
      have hI := hstep i j hiQ2 (by omega) hjN2 x y z hrx hry hrz
      refine ⟨_, hv, hI, ?_⟩
      subst hc
      intro a b s hs
      simp only [hlq, hlf, Nat.add_sub_cancel] at hs
      by_cases hab : a = i ∧ b = j
      · obtain ⟨rfl, rfl⟩ := hab
        have hsome : (readCell c3.m_scoreDp a b).isSome = true := by
          have e1 := (EvaluateImpl_frame _ _ _ _ _ _ h1).2.1
          have e2 := (EvaluateImpl_frame _ _ _ _ _ _ h2).2.1
          have e3 := (EvaluateImpl_frame _ _ _ _ _ _ h3).2.1
          rw [readCell_eq_of_shape (e3.trans (e2.trans e1))]
          rw [hlq, hlf] at hr
          simp only [Nat.add_sub_cancel] at hr
          rw [hr]; rfl
        obtain ⟨s0, hs0⟩ := Option.isSome_iff_exists.mp hsome
        rw [readCell_writeCell_same hs0] at hs
        right
        refine ⟨_, ?_, hI⟩
        rw [← Option.some.inj hs, hv]
      · rw [readCell_writeCell_ne _ _ (by omega)] at hs
        exact ok3 a b s hs

/-! ## Agreement with the reference recurrence -/

theorem align_succ (Q N : List Char) (i j : Nat) :
    align Q N (i + 1) (j + 1) =
      max 0 (max (align Q N (i + 1) j - 2)
        (max (align Q N i (j + 1) - 2)
          (align Q N i j + (if Q[i]? = N[j]? then 3 else -3)))) := by
  rw [align]

theorem align_zero_left (Q N : List Char) (j : Nat) : align Q N 0 j = 0 := by
  rw [align]

theorem align_zero_right (Q N : List Char) (i : Nat) : align Q N i 0 = 0 := by
  cases i <;> rw [align]

theorem Ret_align (Q N : List Char) (i j : Nat) (x : Int) :
    Ret (fun a b x => x = align Q N (a + 1) (b + 1)) i j x ↔ x = align Q N i j := by
  cases i with
  | zero => simp [Ret, align_zero_left]
  | succ i =>
    cases j with
    | zero => simp [Ret, align_zero_right]
    | succ j => simp [Ret]

theorem stepInt_align (Q N : List Char) (i j : Nat) :
    stepInt (align Q N (i + 1) j) (align Q N i (j + 1)) (align Q N i j)
      (decide (Q[i]? = N[j]?)) = align Q N (i + 1) (j + 1) := by
  rw [align_succ]
  unfold stepInt
  by_cases h : Q[i]? = N[j]?
  · rw [if_pos h, if_pos (decide_eq_true h)]
    omega
  · rw [if_neg h, if_neg (by simpa using h)]
    omega

theorem EvaluateImpl_align (Q N : List Char) (fuel i j : Nat) (c : Candidate) (v : Score)
    (c' : Candidate) (hN : c.m_filename = N) (hiQ : i ≤ Q.length) (hiN : i ≤ N.length)
    (hjN : j ≤ N.length) (hok : Consistent Q N c.m_scoreDp)
    (h : EvaluateImpl fuel c (Q.take i) (N.take j) = some (v, c')) :
    v = Score.fin (align Q N i j) ∧ Consistent Q N c'.m_scoreDp := by
  have hstep : ∀ i j, i < Q.length → i < N.length → j < N.length → ∀ x y z,
      Ret (fun a b x => x = align Q N (a + 1) (b + 1)) (i + 1) j x →
      Ret (fun a b x => x = align Q N (a + 1) (b + 1)) i (j + 1) y →
      Ret (fun a b x => x = align Q N (a + 1) (b + 1)) i j z →
      stepInt x y z (decide (Q[i]? = N[j]?)) = align Q N (i + 1) (j + 1) := by
    intro i j _ _ _ x y z hx hy hz
    rw [Ret_align] at hx hy hz
    rw [hx, hy, hz, stepInt_align]
  obtain ⟨x, hv, hr, hc⟩ := EvaluateImpl_cells Q N _ hstep fuel i j c v c' hN hiQ hiN hjN hok h
  rw [Ret_align] at hr
  exact ⟨by rw [hv, hr], hc⟩

theorem readCell_new (name : List Char) (a b : Nat) (s : Score)
    (h : readCell (Candidate.new name).m_scoreDp a b = some s) : s = Score.negInf := by
  unfold readCell Candidate.new at h
  simp only [List.getElem?_replicate] at h
  by_cases ha : a < name.length
  · rw [if_pos ha] at h
    simp only [List.getElem?_replicate] at h
    by_cases hb : b < name.length
    · rw [if_pos hb] at h
      rw [← Option.some.inj h]; rfl
    · rw [if_neg hb] at h
      exact Option.noConfusion h
  · rw [if_neg ha] at h
    exact Option.noConfusion h

theorem Consistent_new (Q name : List Char) : Consistent Q name (Candidate.new name).m_scoreDp :=
  fun a b s h => Or.inl (readCell_new name a b s h)

theorem Evaluate_consistent (c : Candidate) (Q : List Char) (hw : WellShaped c)
    (hQ : Q.length ≤ c.m_filename.length) (hok : Consistent Q c.m_filename c.m_scoreDp) :
    ∃ c', Evaluate c Q = some (Score.fin (align Q c.m_filename Q.length c.m_filename.length), c')
      ∧ Consistent Q c.m_filename c'.m_scoreDp := by
  obtain ⟨v, c', h⟩ := Evaluate_returns c Q hw
  have h2 := h
  unfold Evaluate at h2
  have e1 : Q = Q.take Q.length := by simp
  have e2 : c.m_filename = c.m_filename.take c.m_filename.length := by simp
  rw [e1, e2] at h2
  simp only [List.length_take, min_self] at h2
  obtain ⟨hv, hc⟩ := EvaluateImpl_align Q c.m_filename _ Q.length c.m_filename.length c v c'
    rfl (le_refl _) hQ (le_refl _) hok (by simpa using h2)
  exact ⟨c', by rw [h, hv], hc⟩

/-- Claim C1: on a freshly constructed candidate, for a query that is not longer than the
name (in particular for `1 ≤ query.length ≤ name.length`), `Evaluate` returns the value of
the reference recurrence at the full lengths of the query and the name. -/
theorem C1_evaluate_eq_align (name query : List Char) (h2 : query.length ≤ name.length) :
    ∃ c', Evaluate (Candidate.new name) query =
      some (Score.fin (align query name query.length name.length), c') := by
  obtain ⟨c', h, -⟩ := Evaluate_consistent (Candidate.new name) query (WellShaped_new name)
    h2 (Consistent_new query name)
  exact ⟨c', h⟩

/-! ## Which cells are set -/

theorem IsSet_of_frame {c c' : Candidate} {a b : Nat}
    (hfs : ∀ a b, readCell c.m_scoreDp a b ≠ some Score.negInf →
      readCell c'.m_scoreDp a b = readCell c.m_scoreDp a b)
    (h : IsSet c.m_scoreDp a b) : IsSet c'.m_scoreDp a b := by
  obtain ⟨x, hx⟩ := h
  refine ⟨x, ?_⟩
  rw [hfs a b (by rw [hx]; simp), hx]

theorem IsSet_writeCell_of {m : List (List Score)} {i j a b : Nat} (x : Int)
    (h : IsSet m a b) : IsSet (writeCell m i j (Score.fin x)) a b := by
  by_cases hab : a = i ∧ b = j
  · obtain ⟨rfl, rfl⟩ := hab
    obtain ⟨y, hy⟩ := h
    exact ⟨x, readCell_writeCell_same hy _⟩
  · obtain ⟨y, hy⟩ := h
    refine ⟨y, ?_⟩
    rw [readCell_writeCell_ne _ _ (by omega), hy]

theorem IsSet_writeCell_inv {m : List (List Score)} {i j a b : Nat} {v : Score}
    (h : IsSet (writeCell m i j v) a b) : (a = i ∧ b = j) ∨ IsSet m a b := by
  by_cases hab : a = i ∧ b = j
  · exact Or.inl hab
  · right
    obtain ⟨y, hy⟩ := h
    rw [readCell_writeCell_ne _ _ (by omega)] at hy
    exact ⟨y, hy⟩

theorem EvaluateImpl_isSet {fuel : Nat} {c c' : Candidate} {q f : List Char} {v : Score}
    (h : EvaluateImpl fuel c q f = some (v, c'))
    (hg : ¬ (c.m_filename.length < q.length ∨ q = [] ∨ f = [])) :
    IsSet c'.m_scoreDp (q.length - 1) (f.length - 1) := by
  obtain ⟨-, -, -, -, hv, hr⟩ := EvaluateImpl_frame _ _ _ _ _ _ h
  cases v with
  | negInf => exact absurd rfl hv
  | fin x => exact ⟨x, hr hg⟩

theorem EvaluateImpl_downClosed : ∀ (fuel : Nat) (c : Candidate) (q f : List Char) (v : Score)
    (c' : Candidate), DownClosed c.m_scoreDp → EvaluateImpl fuel c q f = some (v, c') →
    DownClosed c'.m_scoreDp := by
  intro fuel
  induction fuel with
  | zero => intro c q f v c' _ h; simp [EvaluateImpl] at h
  | succ fuel ih =>
    intro c q f v c' hdc h
    rcases EvaluateImpl_inv h with ⟨hg, hv, hc⟩ | ⟨hg, hr, hv, hc⟩ |
      ⟨hg, hr, r1, c1, r2, c2, r3, c3, h1, h2, h3, hv, hc⟩
    · subst hc; exact hdc
    · subst hc; exact hdc
    · have dc1 := ih _ _ _ _ _ hdc h1
      have dc2 := ih _ _ _ _ _ dc1 h2
      have dc3 := ih _ _ _ _ _ dc2 h3
      obtain ⟨n1, s1, fs1, -, -, -⟩ := EvaluateImpl_frame _ _ _ _ _ _ h1
      obtain ⟨n2, s2, fs2, -, -, -⟩ := EvaluateImpl_frame _ _ _ _ _ _ h2
      obtain ⟨n3, s3, fs3, -, -, -⟩ := EvaluateImpl_frame _ _ _ _ _ _ h3
      have hq : q ≠ [] := fun e => hg (Or.inr (Or.inl e))
      have hf : f ≠ [] := fun e => hg (Or.inr (Or.inr e))
      have hql : 0 < q.length := List.length_pos.mpr hq
      have hfl : 0 < f.length := List.length_pos.mpr hf
      have hqn : q.length ≤ c.m_filename.length := by
        by_contra hc; exact hg (Or.inl (not_le.mp hc))
      -- the left neighbour is set once the row has a second column
      have F1 : 2 ≤ f.length → IsSet c3.m_scoreDp (q.length - 1) (f.length - 2) := by
        intro h2f
        have hg1 : ¬ (c.m_filename.length < q.length ∨ q = [] ∨ f.dropLast = []) := by
          intro hh
          rcases hh with hh | hh | hh
          · omega
          · exact hq hh
          · have := congrArg List.length hh
            simp at this
            omega
        have := EvaluateImpl_isSet h1 hg1
        simp only [List.length_dropLast] at this
        exact IsSet_of_frame fs3 (IsSet_of_frame fs2 this)
      -- the upper neighbour is set once there is a row above
      have F2 : 2 ≤ q.length → IsSet c3.m_scoreDp (q.length - 2) (f.length - 1) := by
        intro h2q
        have hg2 : ¬ (c1.m_filename.length < q.dropLast.length ∨ q.dropLast = [] ∨ f = []) := by
          intro hh
          rcases hh with hh | hh | hh
          · rw [n1] at hh; simp at hh; omega
          · have := congrArg List.length hh
            simp at this
            omega
          · exact hf hh
        have := EvaluateImpl_isSet h2 hg2
        simp only [List.length_dropLast] at this
        exact IsSet_of_frame fs3 this
      have hshape : shape c3.m_scoreDp = shape c.m_scoreDp := by rw [s3, s2, s1]
      have hvne : v ≠ Score.negInf := by rw [hv]; exact Score.max_zero_ne_negInf _
      obtain ⟨x, hx⟩ : ∃ x, v = Score.fin x := by
        cases v with
        | negInf => exact absurd rfl hvne
        | fin x => exact ⟨x, rfl⟩
      have hsome : (readCell c3.m_scoreDp (q.length - 1) (f.length - 1)).isSome = true := by
        rw [readCell_eq_of_shape hshape, hr]; rfl
      obtain ⟨s0, hs0⟩ := Option.isSome_iff_exists.mp hsome
      subst hc
      simp only
      rw [hx]
      intro a b hab a' b' ha' hb'
      have key : ∀ a b, IsSet c3.m_scoreDp a b → ∀ a' b', a' ≤ a → b' ≤ b →
          IsSet (writeCell c3.m_scoreDp (q.length - 1) (f.length - 1) (Score.fin x)) a' b' :=
        fun a b hset a' b' ha' hb' => IsSet_writeCell_of x (dc3 a b hset a' b' ha' hb')
      rcases IsSet_writeCell_inv hab with ⟨rfl, rfl⟩ | hset
      · by_cases e1 : a' = q.length - 1
        · by_cases e2 : b' = f.length - 1
          · subst e1 e2
            exact ⟨x, readCell_writeCell_same hs0 _⟩
          · exact key _ _ (F1 (by omega)) a' b' (by omega) (by omega)
        · exact key _ _ (F2 (by omega)) a' b' (by omega) (by omega)
      · exact key a b hset a' b' ha' hb'

theorem DownClosed_new (name : List Char) : DownClosed (Candidate.new name).m_scoreDp := by
  intro a b h
  obtain ⟨x, hx⟩ := h
  exact absurd (readCell_new name a b _ hx) (by simp)

/-! ## `max_element` and `GetScore` on a filled row -/

theorem foldl_max_fin : ∀ (xs : List Int) (x : Int), ∃ m,
    (xs.map Score.fin).foldl (fun largest y => if Score.blt largest y then y else largest)
      (Score.fin x) = Score.fin m ∧ (m = x ∨ m ∈ xs) ∧ x ≤ m ∧ ∀ y ∈ xs, y ≤ m := by
  intro xs
  induction xs with
  | nil => intro x; exact ⟨x, rfl, Or.inl rfl, le_refl _, by simp⟩
  | cons y ys ih =>
    intro x
    simp only [List.map_cons, List.foldl_cons]
    by_cases hxy : x < y
    · have hb : Score.blt (Score.fin x) (Score.fin y) = true := by simp [Score.blt, hxy]
      rw [if_pos hb]
      obtain ⟨m, hm, hmem, hle, hall⟩ := ih y
      refine ⟨m, hm, Or.inr ?_, by omega, ?_⟩
      · rcases hmem with e | e
        · rw [e]; exact List.mem_cons_self _ _
        · exact List.mem_cons_of_mem _ e
      · intro z hz
        rcases List.mem_cons.mp hz with e | e
        · rw [e]; exact hle
        · exact hall z e
    · have hb : ¬ (Score.blt (Score.fin x) (Score.fin y) = true) := by simp [Score.blt, hxy]
      rw [if_neg hb]
      obtain ⟨m, hm, hmem, hle, hall⟩ := ih x
      refine ⟨m, hm, ?_, hle, ?_⟩
      · rcases hmem with e | e
        · exact Or.inl e
        · exact Or.inr (List.mem_cons_of_mem _ e)
      · intro z hz
        rcases List.mem_cons.mp hz with e | e
        · rw [e]; omega
        · exact hall z e

theorem max_element_fin (l : List Int) (hl : l ≠ []) :
    ∃ m, max_element (l.map Score.fin) = some (Score.fin m) ∧ m ∈ l ∧ ∀ y ∈ l, y ≤ m := by
  cases l with
  | nil => exact absurd rfl hl
  | cons x xs =>
    obtain ⟨m, hm, hmem, hle, hall⟩ := foldl_max_fin xs x
    refine ⟨m, ?_, ?_, ?_⟩
    · simp only [List.map_cons, max_element]
      rw [hm]
    · rcases hmem with e | e
      · rw [e]; exact List.mem_cons_self _ _
      · exact List.mem_cons_of_mem _ e
    · intro z hz
      rcases List.mem_cons.mp hz with e | e
      · rw [e]; exact hle
      · exact hall z e

theorem size_sub_one {n : Nat} (h1 : 1 ≤ n) (h2 : n < 2 ^ 64) :
    (n + 2 ^ 64 - 1) % 2 ^ 64 = n - 1 := by
  have e : n + 2 ^ 64 - 1 = (n - 1) + 2 ^ 64 := by omega
  rw [e, Nat.add_mod_right, Nat.mod_eq_of_lt (by omega)]

theorem WellShaped_row {c : Candidate} (hw : WellShaped c) {a : Nat}
    (ha : a < c.m_filename.length) :
    ∃ row, c.m_scoreDp[a]? = some row ∧ row.length = c.m_filename.length := by
  have hk : (shape c.m_scoreDp)[a]? = some c.m_filename.length := by
    rw [hw]; simp [List.getElem?_replicate, ha]
  unfold shape at hk
  simp only [List.getElem?_map] at hk
  cases hr : c.m_scoreDp[a]? with
  | none => rw [hr] at hk; simp at hk
  | some row =>
    rw [hr] at hk
    simp only [Option.map_some', Option.some.injEq] at hk
    exact ⟨row, rfl, hk⟩

theorem GetScore_filled (c : Candidate) (Q : List Char) (hw : WellShaped c)
    (hok : Consistent Q c.m_filename c.m_scoreDp) (h1 : 1 ≤ Q.length)
    (h2 : Q.length ≤ c.m_filename.length) (h64 : Q.length < 2 ^ 64)
    (hset : ∀ b, b < c.m_filename.length → IsSet c.m_scoreDp (Q.length - 1) b) :
    ∃ m, GetScore c Q = some (Score.fin m) ∧
      (∃ j, 1 ≤ j ∧ j ≤ c.m_filename.length ∧ m = align Q c.m_filename Q.length j) ∧
      ∀ j, 1 ≤ j → j ≤ c.m_filename.length → align Q c.m_filename Q.length j ≤ m := by
  obtain ⟨row, hrow, hlen⟩ := WellShaped_row hw (show Q.length - 1 < c.m_filename.length by omega)
  have hcell : ∀ b, b < c.m_filename.length →
      row[b]? = some (Score.fin (align Q c.m_filename Q.length (b + 1))) := by
    intro b hb
    obtain ⟨x, hx⟩ := hset b hb
    have hx2 := hx
    unfold readCell at hx2
    rw [hrow] at hx2
    simp only at hx2
    rcases hok _ _ _ hx with e | ⟨y, e, hy⟩
    · exact Score.noConfusion e
    · have hyx : y = x := (Score.fin.inj e).symm
      rw [hx2, ← hyx, hy]
      have e1 : Q.length - 1 + 1 = Q.length := by omega
      rw [e1]
  have hrow_eq : row =
      ((List.range c.m_filename.length).map
        (fun b => align Q c.m_filename Q.length (b + 1))).map Score.fin := by
    apply List.ext_getElem?
    intro b
    by_cases hb : b < c.m_filename.length
    · rw [hcell b hb]
      simp [List.getElem?_map, List.getElem?_range hb]
    · rw [List.getElem?_eq_none (show row.length ≤ b by omega),
        List.getElem?_eq_none (by simp; omega)]
  have hne : (List.range c.m_filename.length).map
      (fun b => align Q c.m_filename Q.length (b + 1)) ≠ [] := by
    intro e
    have := congrArg List.length e
    simp only [List.length_map, List.length_range, List.length_nil] at this
    omega
  obtain ⟨m, hm, hmem, hall⟩ := max_element_fin _ hne
  refine ⟨m, ?_, ?_, ?_⟩
  · unfold GetScore
    rw [if_neg (by omega), size_sub_one h1 h64, hrow]
    simp only
    rw [hrow_eq, hm]
  · obtain ⟨b, hb, e⟩ := List.mem_map.mp hmem
    exact ⟨b + 1, by omega, by have := List.mem_range.mp hb; omega, e.symm⟩
  · intro j hj1 hj2
    apply hall
    apply List.mem_map.mpr
    exact ⟨j - 1, List.mem_range.mpr (by omega), by
      have e1 : j - 1 + 1 = j := by omega
      rw [e1]⟩

/-! ## `Evaluate` on a consistent, down-closed table -/

theorem Evaluate_spec (c : Candidate) (Q : List Char) (hw : WellShaped c)
    (h1 : 1 ≤ Q.length) (h2 : Q.length ≤ c.m_filename.length)
    (hok : Consistent Q c.m_filename c.m_scoreDp) (hdc : DownClosed c.m_scoreDp) :
    ∃ c', Evaluate c Q =
        some (Score.fin (align Q c.m_filename Q.length c.m_filename.length), c') ∧
      c'.m_filename = c.m_filename ∧ WellShaped c' ∧
      Consistent Q c.m_filename c'.m_scoreDp ∧ DownClosed c'.m_scoreDp ∧
      ∀ a b, a < Q.length → b < c.m_filename.length → IsSet c'.m_scoreDp a b := by
  obtain ⟨c', h, hc⟩ := Evaluate_consistent c Q hw h2 hok
  have hn := (EvaluateImpl_frame _ _ _ _ _ _ h).1
  have hw' : WellShaped c' := EvaluateImpl_wellShaped hw h
  have hdc' : DownClosed c'.m_scoreDp := EvaluateImpl_downClosed _ _ _ _ _ _ hdc h
  have hg : ¬ (c.m_filename.length < Q.length ∨ Q = [] ∨ c.m_filename = []) := by
    intro hh
    rcases hh with hh | hh | hh
    · omega
    · rw [hh] at h1; simp at h1
    · have := congrArg List.length hh
      simp only [List.length_nil] at this
      omega
  have hcorner := EvaluateImpl_isSet h hg
  exact ⟨c', h, hn, hw', hc, hdc', fun a b ha hb =>
    hdc' _ _ hcorner a b (by omega) (by omega)⟩

/-- Claim C2: after `Evaluate(query)` on a fresh candidate, with
`1 ≤ query.length ≤ name.length`, every cell of the row read by `GetScore(query)` is set,
and `GetScore(query)` returns a finite value that is the maximum of
`align(query.length, j)` over the name-prefix lengths `j` in `1 .. name.length`. -/
theorem C2_getScore_is_row_maximum (name query : List Char) (h1 : 1 ≤ query.length)
    (h2 : query.length ≤ name.length) (h64 : query.length < 2 ^ 64) :
    ∃ v c' m, Evaluate (Candidate.new name) query = some (v, c') ∧
      (∀ b, b < name.length → IsSet c'.m_scoreDp (query.length - 1) b) ∧
      GetScore c' query = some (Score.fin m) ∧
      (∃ j, 1 ≤ j ∧ j ≤ name.length ∧ m = align query name query.length j) ∧
      ∀ j, 1 ≤ j → j ≤ name.length → align query name query.length j ≤ m := by
  obtain ⟨c', h, hn, hw, hc, -, hset⟩ := Evaluate_spec (Candidate.new name) query
    (WellShaped_new name) h1 h2 (Consistent_new query name) (DownClosed_new name)
  have hn' : c'.m_filename = name := hn
  have hrow : ∀ b, b < c'.m_filename.length → IsSet c'.m_scoreDp (query.length - 1) b :=
    fun b hb => hset _ b (by omega) (by rw [hn'] at hb; exact hb)
  obtain ⟨m, hm, hex, hall⟩ := GetScore_filled c' query hw (by rw [hn']; exact hc) h1
    (by rw [hn']; exact h2) h64 hrow
  rw [hn'] at hex hall
  exact ⟨_, c', m, h, fun b hb => hrow b (by rw [hn']; exact hb), hm, hex, hall⟩

/-- Claim C4: when the query is longer than the name, `GetScore` returns the sentinel
`k_lowestScore`, for every content of the memo table. -/
theorem C4_getScore_longer_query (c : Candidate) (query : List Char)
    (h : query.length > c.m_filename.length) : GetScore c query = some k_lowestScore := by
  unfold GetScore
  rw [if_pos h]

/-- Claim C8: `Evaluate` returns `0` and leaves the candidate as it is for the empty query,
and for every query when the name of the candidate is empty, in every memo state. -/
theorem C8_evaluate_degenerate (c : Candidate) (m : List (List Score)) (query : List Char) :
    Evaluate c [] = some (Score.fin 0, c) ∧
    Evaluate { m_filename := [], m_scoreDp := m } query =
      some (Score.fin 0, { m_filename := [], m_scoreDp := m }) :=
  ⟨EvaluateImpl_guard _ c [] c.m_filename (Or.inr (Or.inl rfl)),
   EvaluateImpl_guard _ _ query [] (Or.inr (Or.inr rfl))⟩

/-- Claim C9 (the code departs from it): for the name `a` and the empty query,
`Evaluate` returns `0`, and the following `GetScore` reads row `2 ^ 64 - 1` of a table
with one row, outside the vector, instead of returning `0`. -/
theorem C9_getScore_empty_query_out_of_bounds :
    Evaluate (Candidate.new ['a']) [] = some (Score.fin 0, Candidate.new ['a']) ∧
    GetScore (Candidate.new ['a']) [] = none := by
  refine ⟨EvaluateImpl_guard _ _ [] _ (Or.inr (Or.inl rfl)), ?_⟩
  unfold GetScore Candidate.new
  simp

/-! ## Bounds on the reference recurrence -/

theorem align_le (Q N : List Char) : ∀ i j : Nat,
    align Q N i j ≤ 3 * (i : Int) ∧ align Q N i j ≤ 3 * (j : Int) := by
  intro i
  induction i with
  | zero => intro j; rw [align_zero_left]; omega
  | succ i ihi =>
    intro j
    induction j with
    | zero => rw [align_zero_right]; omega
    | succ j ihj =>
      rw [align_succ]
      have a1 := ihi (j + 1)
      have a2 := ihi j
      by_cases hc : Q[i]? = N[j]?
      · rw [if_pos hc]; omega
      · rw [if_neg hc]; omega

theorem align_nonneg (Q N : List Char) (i j : Nat) : 0 ≤ align Q N i j := by
  cases i with
  | zero => rw [align_zero_left]
  | succ i =>
    cases j with
    | zero => rw [align_zero_right]
    | succ j => rw [align_succ]; exact le_max_left _ _

theorem align_self (s : List Char) : ∀ k : Nat, align s s k k = 3 * (k : Int) := by
  intro k
  induction k with
  | zero => rw [align_zero_left]; rfl
  | succ k ih =>
    rw [align_succ, if_pos rfl, ih]
    have a1 := align_le s s (k + 1) k
    have a2 := align_le s s k (k + 1)
    omega

/-- Claim C6: on a fresh candidate whose name is the non-empty string `s`, `Evaluate(s)`
returns `3 * s.length`, and so does the following `GetScore(s)`. -/
theorem C6_exact_match_score (s : List Char) (hs : s ≠ []) (h64 : s.length < 2 ^ 64) :
    ∃ c', Evaluate (Candidate.new s) s = some (Score.fin (3 * (s.length : Int)), c') ∧
      GetScore c' s = some (Score.fin (3 * (s.length : Int))) := by
  have h1 : 1 ≤ s.length := List.length_pos.mpr hs
  obtain ⟨c', h, hn, hw, hc, -, hset⟩ := Evaluate_spec (Candidate.new s) s
    (WellShaped_new s) h1 (le_refl _) (Consistent_new s s) (DownClosed_new s)
  have hn' : c'.m_filename = s := hn
  have hrow : ∀ b, b < c'.m_filename.length → IsSet c'.m_scoreDp (s.length - 1) b :=
    fun b hb => hset _ b (by omega) (by rw [hn'] at hb; exact hb)
  obtain ⟨m, hm, ⟨j, hj1, hj2, hj⟩, hall⟩ := GetScore_filled c' s hw (by rw [hn']; exact hc)
    h1 (by rw [hn']) h64 hrow
  rw [hn'] at hall hj
  have hself : align s s s.length s.length = 3 * (s.length : Int) := align_self s s.length
  have hup : m ≤ 3 * (s.length : Int) := by rw [hj]; exact (align_le s s s.length j).1
  have hlo : 3 * (s.length : Int) ≤ m := by
    rw [← hself]; exact hall s.length h1 (le_refl _)
  have hmeq : m = 3 * (s.length : Int) := le_antisymm hup hlo
  refine ⟨c', ?_, ?_⟩
  · have e : (Candidate.new s).m_filename = s := rfl
    rw [e, hself] at h
    exact h
  · rw [hm, hmeq]

/-! ## Non-negative cells in reachable states -/

theorem Evaluate_nonneg (c : Candidate) (q : List Char) (hw : WellShaped c)
    (hok : CellsOK (fun _ _ x => 0 ≤ x) c.m_scoreDp) :
    ∃ x c', Evaluate c q = some (Score.fin x, c') ∧ 0 ≤ x ∧ WellShaped c' ∧
      c'.m_filename = c.m_filename ∧ CellsOK (fun _ _ x => 0 ≤ x) c'.m_scoreDp := by
  by_cases hg : c.m_filename.length < q.length
  · exact ⟨0, c, EvaluateImpl_guard _ c q c.m_filename (Or.inl hg), le_refl _, hw, rfl, hok⟩
  · obtain ⟨v, c', h⟩ := Evaluate_returns c q hw
    have hn := (EvaluateImpl_frame _ _ _ _ _ _ h).1
    have hw' : WellShaped c' := EvaluateImpl_wellShaped hw h
    have h2 := h
    unfold Evaluate at h2
    have e1 : q = q.take q.length := by simp
    have e2 : c.m_filename = c.m_filename.take c.m_filename.length := by simp
    rw [e1, e2] at h2
    simp only [List.length_take, min_self] at h2
    have hstep : ∀ i j, i < q.length → i < c.m_filename.length → j < c.m_filename.length →
        ∀ x y z, Ret (fun _ _ x => 0 ≤ x) (i + 1) j x → Ret (fun _ _ x => 0 ≤ x) i (j + 1) y →
        Ret (fun _ _ x => 0 ≤ x) i j z →
        0 ≤ stepInt x y z (decide (q[i]? = c.m_filename[j]?)) := by
      intro i j _ _ _ x y z _ _ _
      exact le_max_right _ _
    obtain ⟨x, hv, hr, hc⟩ := EvaluateImpl_cells q c.m_filename _ hstep _ q.length
      c.m_filename.length c v c' rfl (le_refl _) (by omega) (le_refl _) hok
      (by simpa using h2)
    have hx : 0 ≤ x := by
      have hR : ∀ i j, Ret (fun _ _ x => 0 ≤ x) i j x → 0 ≤ x := by
        intro i j hh
        cases i with
        | zero => simp only [Ret] at hh; omega
        | succ i =>
          cases j with
          | zero => simp only [Ret] at hh; omega
          | succ j => exact hh
      exact hR _ _ hr
    exact ⟨x, c', by rw [h, hv], hx, hw', hn, hc⟩

theorem Reachable_inv {name : List Char} {c : Candidate} (h : Reachable name c) :
    WellShaped c ∧ c.m_filename = name ∧ CellsOK (fun _ _ x => 0 ≤ x) c.m_scoreDp := by
  induction h with
  | fresh =>
    exact ⟨WellShaped_new name, rfl, fun a b s hs => Or.inl (readCell_new name a b s hs)⟩
  | step query _ hev ih =>
    obtain ⟨hw, hn, hok⟩ := ih
    obtain ⟨x, c2, h2, -, hw2, hn2, hok2⟩ := Evaluate_nonneg _ query hw hok
    rw [h2] at hev
    have e := (Prod.mk.inj (Option.some.inj hev)).2
    subst e
    exact ⟨hw2, by rw [hn2, hn], hok2⟩

/-- Claim C7: in every memo state reachable from a fresh candidate by calls of `Evaluate`,
`Evaluate(query)` returns, and its value is finite and at least `0`. -/
theorem C7_evaluate_nonneg (name query : List Char) (c : Candidate) (h : Reachable name c) :
    ∃ x c', Evaluate c query = some (Score.fin x, c') ∧ 0 ≤ x := by
  obtain ⟨hw, -, hok⟩ := Reachable_inv h
  obtain ⟨x, c', he, hx, -⟩ := Evaluate_nonneg c query hw hok
  exact ⟨x, c', he, hx⟩

/-! ## Repeating a call -/

theorem Evaluate_twice {c c' : Candidate} {q : List Char} {v : Score}
    (h : Evaluate c q = some (v, c')) : Evaluate c' q = some (v, c') := by
  obtain ⟨hn, -, -, -, hv, hr⟩ := EvaluateImpl_frame _ _ _ _ _ _ h
  unfold Evaluate at h ⊢
  rw [hn]
  by_cases hg : c.m_filename.length < q.length ∨ q = [] ∨ c.m_filename = []
  · rw [EvaluateImpl_guard _ c q _ hg] at h
    obtain ⟨e1, e2⟩ := Prod.mk.inj (Option.some.inj h)
    subst e1 e2
    exact EvaluateImpl_guard _ _ q _ hg
  · have hg' : ¬ (c'.m_filename.length < q.length ∨ q = [] ∨ c.m_filename = []) := by
      rw [hn]; exact hg
    exact EvaluateImpl_hit _ hg' (hr hg) hv

theorem max_element_returns {row : List Score} (h : row ≠ []) :
    ∃ g, max_element row = some g := by
  cases row with
  | nil => exact absurd rfl h
  | cons x xs => exact ⟨_, rfl⟩

theorem GetScore_returns (c : Candidate) (q : List Char) (hw : WellShaped c) (hq : q ≠ [])
    (h64 : q.length < 2 ^ 64) : ∃ g, GetScore c q = some g := by
  have h1 : 1 ≤ q.length := List.length_pos.mpr hq
  unfold GetScore
  by_cases hlen : q.length > c.m_filename.length
  · rw [if_pos hlen]; exact ⟨_, rfl⟩
  · rw [if_neg hlen, size_sub_one h1 h64]
    obtain ⟨row, hrow, hl⟩ := WellShaped_row hw (show q.length - 1 < c.m_filename.length by omega)
    rw [hrow]
    apply max_element_returns
    intro e
    rw [e] at hl
    simp only [List.length_nil] at hl
    omega

/-- On a candidate with a well-shaped table `Evaluate(query)` returns; a second
`Evaluate(query)` returns the same value and leaves the table as the first call left it,
and so does every further repetition; for a non-empty query `GetScore(query)` returns a
value `g` on that table, after any number of repetitions. -/
theorem Evaluate_repeat (c : Candidate) (query : List Char) (hw : WellShaped c) :
    ∃ v c', Evaluate c query = some (v, c') ∧ Evaluate c' query = some (v, c') ∧
      (∀ n : Nat, evaluateTimes query n c' = some c') ∧
      (query ≠ [] → query.length < 2 ^ 64 → ∃ g, GetScore c' query = some g ∧
        ∀ n : Nat, (evaluateTimes query n c').bind (fun s => GetScore s query) = some g) := by
  obtain ⟨v, c', h⟩ := Evaluate_returns c query hw
  have h2 := Evaluate_twice h
  have hw' : WellShaped c' := EvaluateImpl_wellShaped hw h
  have hfix : ∀ n : Nat, evaluateTimes query n c' = some c' := by
    intro n
    induction n with
    | zero => rfl
    | succ n ih => rw [evaluateTimes, h2]; exact ih
  refine ⟨v, c', h, h2, hfix, fun hq h64 => ?_⟩
  obtain ⟨g, hg⟩ := GetScore_returns c' query hw' hq h64
  exact ⟨g, hg, fun n => by rw [hfix n]; exact hg⟩

/-- Claim C10 (the code departs from it): for the name `a` and the empty query, `Evaluate`
returns `0` and leaves the candidate as it is, also when it is repeated, but the
`GetScore` that follows reads row `2 ^ 64 - 1` of a table with one row, outside the vector,
and so returns no value to repeat. -/
theorem C10_getScore_after_evaluate_out_of_bounds :
    Evaluate (Candidate.new ['a']) [] = some (Score.fin 0, Candidate.new ['a']) ∧
    evaluateTimes [] 2 (Candidate.new ['a']) = some (Candidate.new ['a']) ∧
    (evaluateTimes [] 2 (Candidate.new ['a'])).bind (fun s => GetScore s []) = none := by
  decide

/-! ## The stable sort -/

theorem Score.blt_asymm {a b : Score} (h : Score.blt a b = true) : Score.blt b a = false := by
  cases a with
  | negInf => cases b <;> rfl
  | fin x =>
    cases b with
    | negInf => exact Bool.noConfusion h
    | fin y =>
      have hxy : x < y := by simpa [Score.blt] using h
      simp only [Score.blt, decide_eq_false_iff_not]
      omega

theorem Score.blt_false_trans {a b c : Score} (h1 : Score.blt a b = false)
    (h2 : Score.blt b c = false) : Score.blt a c = false := by
  cases a with
  | negInf =>
    cases b with
    | negInf => exact h2
    | fin y => exact Bool.noConfusion h1
  | fin x =>
    cases c with
    | negInf => rfl
    | fin z =>
      cases b with
      | negInf => exact Bool.noConfusion h2
      | fin y =>
        have hxy : ¬ x < y := by simpa [Score.blt] using h1
        have hyz : ¬ y < z := by simpa [Score.blt] using h2
        simp only [Score.blt, decide_eq_false_iff_not]
        omega

theorem Score.blt_irrefl (a : Score) : Score.blt a a = false := by
  cases a <;> simp [Score.blt]

theorem insertStable_spec {α : Type} (key : α → Score) (comp : α → α → Option Bool) (a : α) :
    ∀ l : List α,
    (∀ x ∈ a :: l, ∀ y ∈ a :: l, comp x y = some (Score.blt (key y) (key x))) →
    ∃ out, insertStable comp a l = some out ∧ out.Perm (a :: l) ∧
      (l.Pairwise (fun x y => Score.blt (key x) (key y) = false) →
        out.Pairwise (fun x y => Score.blt (key x) (key y) = false)) ∧
      ∀ s, out.filter (fun x => decide (key x = s)) =
        (a :: l).filter (fun x => decide (key x = s)) := by
  intro l
  induction l with
  | nil => intro _; exact ⟨[a], rfl, List.Perm.refl _, fun _ => by simp, fun _ => rfl⟩
  | cons b l ih =>
    intro hcomp
    have hba : comp b a = some (Score.blt (key a) (key b)) :=
      hcomp b (by simp) a (by simp)
    have hcomp' : ∀ x ∈ a :: l, ∀ y ∈ a :: l, comp x y = some (Score.blt (key y) (key x)) := by
      intro x hx y hy
      apply hcomp
      · rcases List.mem_cons.mp hx with e | e
        · rw [e]; simp
        · simp [e]
      · rcases List.mem_cons.mp hy with e | e
        · rw [e]; simp
        · simp [e]
    cases hlt : Score.blt (key a) (key b) with
    | true =>
      obtain ⟨out, hout, hperm, hsorted, hstab⟩ := ih hcomp'
      refine ⟨b :: out, ?_, ?_, ?_, ?_⟩
      · rw [insertStable, hba, hlt]
        simp only [hout]
      · exact (List.Perm.cons b hperm).trans (List.Perm.swap a b l)
      · intro hp
        rw [List.pairwise_cons] at hp ⊢
        refine ⟨?_, hsorted hp.2⟩
        intro x hx
        rcases List.mem_cons.mp (hperm.mem_iff.mp hx) with e | e
        · rw [e]; exact Score.blt_asymm hlt
        · exact hp.1 x e
      · intro s
        have hne : ¬ (key a = s ∧ key b = s) := by
          intro hh
          rw [hh.1, hh.2, Score.blt_irrefl] at hlt
          exact Bool.noConfusion hlt
        rw [List.filter_cons, hstab s]
        by_cases ha : key a = s
        · have hb : ¬ key b = s := fun e => hne ⟨ha, e⟩
          simp [List.filter_cons, ha, hb]
        · simp [List.filter_cons, ha]
    | false =>
      refine ⟨a :: b :: l, ?_, List.Perm.refl _, ?_, fun _ => rfl⟩
      · rw [insertStable, hba, hlt]
      · intro hp
        rw [List.pairwise_cons]
        refine ⟨?_, hp⟩
        intro x hx
        rcases List.mem_cons.mp hx with e | e
        · rw [e]; exact hlt
        · exact Score.blt_false_trans hlt ((List.pairwise_cons.mp hp).1 x e)

theorem stable_sort_spec {α : Type} (key : α → Score) (comp : α → α → Option Bool) :
    ∀ l : List α,
    (∀ x ∈ l, ∀ y ∈ l, comp x y = some (Score.blt (key y) (key x))) →
    ∃ out, stable_sort comp l = some out ∧ out.Perm l ∧
      out.Pairwise (fun x y => Score.blt (key x) (key y) = false) ∧
      ∀ s, out.filter (fun x => decide (key x = s)) = l.filter (fun x => decide (key x = s)) := by
  intro l
  induction l with
  | nil => intro _; exact ⟨[], rfl, List.Perm.refl _, List.Pairwise.nil, fun _ => rfl⟩
  | cons a l ih =>
    intro hcomp
    obtain ⟨r, hr, hperm, hsorted, hstab⟩ := ih (fun x hx y hy =>
      hcomp x (List.mem_cons_of_mem _ hx) y (List.mem_cons_of_mem _ hy))
    have hcomp' : ∀ x ∈ a :: r, ∀ y ∈ a :: r, comp x y = some (Score.blt (key y) (key x)) := by
      intro x hx y hy
      apply hcomp
      · exact ((List.Perm.cons a hperm).mem_iff).mp hx
      · exact ((List.Perm.cons a hperm).mem_iff).mp hy
    obtain ⟨out, hout, hperm2, hsorted2, hstab2⟩ := insertStable_spec key comp a r hcomp'
    refine ⟨out, ?_, hperm2.trans (List.Perm.cons a hperm), hsorted2 hsorted, ?_⟩
    · rw [stable_sort, hr]
      exact hout
    · intro s
      rw [hstab2 s, List.filter_cons, List.filter_cons, hstab s]

/-! ## The ranking pipeline on fresh candidates -/

theorem Evaluate_fresh_getScore (name q : List Char) (hq : q ≠ []) (h64 : q.length < 2 ^ 64) :
    ∃ v c', Evaluate (Candidate.new name) q = some (v, c') ∧ c'.m_filename = name ∧
      ((name.length < q.length ∧ GetScore c' q = some Score.negInf) ∨
        (q.length ≤ name.length ∧ ∃ m, GetScore c' q = some (Score.fin m))) := by
  have h1 : 1 ≤ q.length := List.length_pos.mpr hq
  by_cases hlen : name.length < q.length
  · exact ⟨_, _, EvaluateImpl_guard _ (Candidate.new name) q name (Or.inl hlen), rfl,
      Or.inl ⟨hlen, by unfold GetScore; rw [if_pos (show q.length > (Candidate.new name).m_filename.length from hlen)]; rfl⟩⟩
  · have h2 : q.length ≤ name.length := not_lt.mp hlen
    obtain ⟨c', h, hn, hw, hc, -, hset⟩ := Evaluate_spec (Candidate.new name) q
      (WellShaped_new name) h1 h2 (Consistent_new q name) (DownClosed_new name)
    have hn' : c'.m_filename = name := hn
    have hrow : ∀ b, b < c'.m_filename.length → IsSet c'.m_scoreDp (q.length - 1) b :=
      fun b hb => hset _ b (by omega) (by rw [hn'] at hb; exact hb)
    obtain ⟨m, hm, -, -⟩ := GetScore_filled c' q hw (by rw [hn']; exact hc) h1
      (by rw [hn']; exact h2) h64 hrow
    exact ⟨_, c', h, hn', Or.inr ⟨h2, m, hm⟩⟩

theorem evaluateAll_fresh (q : List Char) (hq : q ≠ []) (h64 : q.length < 2 ^ 64) :
    ∀ names : List (List Char), ∃ evald,
      evaluateAll q (names.map Candidate.new) = some evald ∧
      evald.map Candidate.m_filename = names ∧
      ∀ c ∈ evald, (c.m_filename.length < q.length ∧ GetScore c q = some Score.negInf) ∨
        (q.length ≤ c.m_filename.length ∧ ∃ m, GetScore c q = some (Score.fin m)) := by
  intro names
  induction names with
  | nil => exact ⟨[], rfl, rfl, fun c hc => absurd hc (List.not_mem_nil c)⟩
  | cons name names ih =>
    obtain ⟨evald, he, hnames, hall⟩ := ih
    obtain ⟨v, c', hev, hn, hsc⟩ := Evaluate_fresh_getScore name q hq h64
    refine ⟨c' :: evald, ?_, ?_, ?_⟩
    · simp only [List.map_cons, evaluateAll, hev, he]
    · simp only [List.map_cons, hn, hnames]
    · intro c hc
      rcases List.mem_cons.mp hc with e | e
      · rw [e, hn]; exact hsc
      · exact hall c e

theorem rank_spec (q : List Char) (evald : List Candidate)
    (hall : ∀ c ∈ evald, ∃ s, GetScore c q = some s) :
    ∃ out, stable_sort (scoreGreater q) evald = some out ∧ out.Perm evald ∧
      out.Pairwise (fun a b => ∃ x y, GetScore a q = some x ∧ GetScore b q = some y ∧
        Score.blt x y = false) ∧
      ∀ s, out.filter (fun c => decide (GetScore c q = some s)) =
        evald.filter (fun c => decide (GetScore c q = some s)) := by
  have hkey : ∀ c ∈ evald, GetScore c q = some ((GetScore c q).getD Score.negInf) := by
    intro c hc
    obtain ⟨s, hs⟩ := hall c hc
    rw [hs]; rfl
  have hcomp : ∀ x ∈ evald, ∀ y ∈ evald, scoreGreater q x y =
      some (Score.blt ((GetScore y q).getD Score.negInf) ((GetScore x q).getD Score.negInf)) := by
    intro x hx y hy
    obtain ⟨sx, hsx⟩ := hall x hx
    obtain ⟨sy, hsy⟩ := hall y hy
    simp only [scoreGreater, hsx, hsy, Option.getD_some]
  obtain ⟨out, hout, hperm, hsorted, hstab⟩ :=
    stable_sort_spec (fun c => (GetScore c q).getD Score.negInf) (scoreGreater q) evald hcomp
  have hfilter : ∀ (l : List Candidate), (∀ c ∈ l, c ∈ evald) → ∀ s,
      l.filter (fun c => decide (GetScore c q = some s)) =
      l.filter (fun c => decide ((GetScore c q).getD Score.negInf = s)) := by
    intro l hl s
    apply List.filter_congr
    intro c hc
    obtain ⟨sc, hsc⟩ := hall c (hl c hc)
    simp [hsc]
  refine ⟨out, hout, hperm, ?_, ?_⟩
  · refine List.Pairwise.imp_of_mem ?_ hsorted
    intro a b ha hb hab
    exact ⟨_, _, hkey a (hperm.mem_iff.mp ha), hkey b (hperm.mem_iff.mp hb), hab⟩
  · intro s
    rw [hfilter out (fun c hc => hperm.mem_iff.mp hc) s, hfilter evald (fun c hc => hc) s]
    exact hstab s

/-- Claim C3: for a non-empty query and fresh candidates with the given names, the loop of
`Evaluate` calls returns the candidates in input order (`evald`), and the stable sort
returns a permutation of them whose `GetScore` values never increase from one position to
a later one, and in which the candidates of each score appear in their input order; when
all scores are equal the list is returned unchanged. -/
theorem C3_rank_sorted_stable (query : List Char) (names : List (List Char))
    (hq : query ≠ []) (h64 : query.length < 2 ^ 64) :
    ∃ evald out, evaluateAll query (names.map Candidate.new) = some evald ∧
      evald.map Candidate.m_filename = names ∧
      rank query (names.map Candidate.new) = some out ∧
      out.Perm evald ∧
      out.Pairwise (fun a b => ∃ x y, GetScore a query = some x ∧ GetScore b query = some y ∧
        Score.blt x y = false) ∧
      (∀ s, out.filter (fun c => decide (GetScore c query = some s)) =
        evald.filter (fun c => decide (GetScore c query = some s))) ∧
      ((∀ a ∈ evald, ∀ b ∈ evald, GetScore a query = GetScore b query) → out = evald) := by
  obtain ⟨evald, he, hnames, hall⟩ := evaluateAll_fresh query hq h64 names
  have hsome : ∀ c ∈ evald, ∃ s, GetScore c query = some s := by
    intro c hc
    rcases hall c hc with ⟨-, h⟩ | ⟨-, m, h⟩
    · exact ⟨_, h⟩
    · exact ⟨_, h⟩
  obtain ⟨out, hout, hperm, hsorted, hstab⟩ := rank_spec query evald hsome
  refine ⟨evald, out, he, hnames, ?_, hperm, hsorted, hstab, ?_⟩
  · simp only [rank, he]
    exact hout
  · intro heq
    cases hev : evald with
    | nil => rw [hev] at hperm; exact List.Perm.eq_nil hperm
    | cons c0 rest =>
      have hc0 : c0 ∈ evald := by rw [hev]; simp
      obtain ⟨s0, hs0⟩ := hsome c0 hc0
      have h1 : ∀ c ∈ evald, GetScore c query = some s0 := fun c hc =>
        (heq c hc c0 hc0).trans hs0
      have h2 := hstab s0
      rw [List.filter_eq_self.mpr (fun c hc => by simp [h1 c (hperm.mem_iff.mp hc)]),
        List.filter_eq_self.mpr (fun c hc => by simp [h1 c hc])] at h2
      rw [← hev]
      exact h2

/-- Claim C5: for a query of machine length, whenever the ranking pipeline on fresh
candidates yields an output, no candidate whose name is shorter than the query stands
before a candidate whose name is at least as long as the query; for a non-empty query the
pipeline does yield an output. -/
theorem C5_short_names_last (query : List Char) (names : List (List Char))
    (h64 : query.length < 2 ^ 64) :
    (query ≠ [] → ∃ out, rank query (names.map Candidate.new) = some out) ∧
    ∀ out, rank query (names.map Candidate.new) = some out →
      out.Pairwise (fun a b =>
        a.m_filename.length < query.length → b.m_filename.length < query.length) := by
  by_cases hq : query = []
  · refine ⟨fun h => absurd hq h, fun out _ => ?_⟩
    apply List.pairwise_of_forall
    intro a b hab
    rw [hq] at hab
    simp at hab
  · obtain ⟨evald, he, hnames, hall⟩ := evaluateAll_fresh query hq h64 names
    have hsome : ∀ c ∈ evald, ∃ s, GetScore c query = some s := by
      intro c hc
      rcases hall c hc with ⟨-, h⟩ | ⟨-, m, h⟩
      · exact ⟨_, h⟩
      · exact ⟨_, h⟩
    obtain ⟨out, hout, hperm, hsorted, -⟩ := rank_spec query evald hsome
    have hrank : rank query (names.map Candidate.new) = some out := by
      simp only [rank, he]
      exact hout
    refine ⟨fun _ => ⟨out, hrank⟩, ?_⟩
    intro out2 h2
    rw [hrank] at h2
    rw [← Option.some.inj h2]
    refine List.Pairwise.imp_of_mem ?_ hsorted
    intro a b ha hb hab hshort
    obtain ⟨x, y, hx, hy, hxy⟩ := hab
    rcases hall a (hperm.mem_iff.mp ha) with ⟨-, hxa⟩ | ⟨hlong, -⟩
    · rcases hall b (hperm.mem_iff.mp hb) with ⟨hbs, -⟩ | ⟨-, m, hyb⟩
      · exact hbs
      · rw [hx] at hxa
        rw [hy] at hyb
        rw [Option.some.inj hxa, Option.some.inj hyb] at hxy
        simp [Score.blt] at hxy
    · omega

/-! ## Instances of the theorems at concrete inputs -/

/-- Instance of C1 at the name `abc` and the query `ab`. -/
theorem C1_evaluate_eq_align_witness :
    ['a', 'b'].length ≤ ['a', 'b', 'c'].length ∧
    ∃ c', Evaluate (Candidate.new ['a', 'b', 'c']) ['a', 'b'] =
      some (Score.fin (align ['a', 'b'] ['a', 'b', 'c'] ['a', 'b'].length
        ['a', 'b', 'c'].length), c') :=
  ⟨by decide, C1_evaluate_eq_align ['a', 'b', 'c'] ['a', 'b'] (by decide)⟩

/-- Instance of C2 at the name `abc` and the query `ab`. -/
theorem C2_getScore_is_row_maximum_witness :
    (1 ≤ ['a', 'b'].length ∧ ['a', 'b'].length ≤ ['a', 'b', 'c'].length ∧
      ['a', 'b'].length < 2 ^ 64) ∧
    ∃ v c' m, Evaluate (Candidate.new ['a', 'b', 'c']) ['a', 'b'] = some (v, c') ∧
      (∀ b, b < ['a', 'b', 'c'].length → IsSet c'.m_scoreDp (['a', 'b'].length - 1) b) ∧
      GetScore c' ['a', 'b'] = some (Score.fin m) ∧
      (∃ j, 1 ≤ j ∧ j ≤ ['a', 'b', 'c'].length ∧
        m = align ['a', 'b'] ['a', 'b', 'c'] ['a', 'b'].length j) ∧
      ∀ j, 1 ≤ j → j ≤ ['a', 'b', 'c'].length →
        align ['a', 'b'] ['a', 'b', 'c'] ['a', 'b'].length j ≤ m :=
  ⟨⟨by decide, by decide, by decide⟩,
    C2_getScore_is_row_maximum ['a', 'b', 'c'] ['a', 'b'] (by decide) (by decide) (by decide)⟩

/-- Instance of C3 at the query `ab` and the names `b`, `ab`, `xab`. -/
theorem C3_rank_sorted_stable_witness :
    (['a', 'b'] ≠ [] ∧ ['a', 'b'].length < 2 ^ 64) ∧
    ∃ evald out,
      evaluateAll ['a', 'b'] ([['b'], ['a', 'b'], ['x', 'a', 'b']].map Candidate.new) =
        some evald ∧
      evald.map Candidate.m_filename = [['b'], ['a', 'b'], ['x', 'a', 'b']] ∧
      rank ['a', 'b'] ([['b'], ['a', 'b'], ['x', 'a', 'b']].map Candidate.new) = some out ∧
      out.Perm evald ∧
      out.Pairwise (fun a b => ∃ x y, GetScore a ['a', 'b'] = some x ∧
        GetScore b ['a', 'b'] = some y ∧ Score.blt x y = false) ∧
      (∀ s, out.filter (fun c => decide (GetScore c ['a', 'b'] = some s)) =
        evald.filter (fun c => decide (GetScore c ['a', 'b'] = some s))) ∧
      ((∀ a ∈ evald, ∀ b ∈ evald, GetScore a ['a', 'b'] = GetScore b ['a', 'b']) →
        out = evald) :=
  ⟨⟨by decide, by decide⟩,
    C3_rank_sorted_stable ['a', 'b'] [['b'], ['a', 'b'], ['x', 'a', 'b']] (by decide)
      (by decide)⟩

/-- Instance of C4 at a fresh candidate named `a` and the query `ab`. -/
theorem C4_getScore_longer_query_witness :
    ['a', 'b'].length > (Candidate.new ['a']).m_filename.length ∧
    GetScore (Candidate.new ['a']) ['a', 'b'] = some k_lowestScore :=
  ⟨by decide, C4_getScore_longer_query (Candidate.new ['a']) ['a', 'b'] (by decide)⟩

/-- Instance of C5 at the query `ab` and the names `b`, `ab`, `xab`. -/
theorem C5_short_names_last_witness :
    ['a', 'b'].length < 2 ^ 64 ∧
    ((['a', 'b'] ≠ [] →
        ∃ out, rank ['a', 'b'] ([['b'], ['a', 'b'], ['x', 'a', 'b']].map Candidate.new) =
          some out) ∧
      ∀ out, rank ['a', 'b'] ([['b'], ['a', 'b'], ['x', 'a', 'b']].map Candidate.new) =
          some out →
        out.Pairwise (fun a b =>
          a.m_filename.length < ['a', 'b'].length → b.m_filename.length < ['a', 'b'].length)) :=
  ⟨by decide, C5_short_names_last ['a', 'b'] [['b'], ['a', 'b'], ['x', 'a', 'b']] (by decide)⟩

/-- Instance of C6 at `abc`: the score is `9`. -/
theorem C6_exact_match_score_witness :
    (['a', 'b', 'c'] ≠ [] ∧ ['a', 'b', 'c'].length < 2 ^ 64) ∧
    ∃ c', Evaluate (Candidate.new ['a', 'b', 'c']) ['a', 'b', 'c'] = some (Score.fin 9, c') ∧
      GetScore c' ['a', 'b', 'c'] = some (Score.fin 9) :=
  ⟨⟨by decide, by decide⟩, C6_exact_match_score ['a', 'b', 'c'] (by decide) (by decide)⟩

/-- Instance of C7 at the state of the candidate `ab` after `Evaluate` with the query `xb`,
and the query `ab`. -/
theorem C7_evaluate_nonneg_witness :
    Reachable ['a', 'b']
      (Candidate.mk ['a', 'b'] [[Score.fin 0, Score.fin 0], [Score.fin 0, Score.fin 3]]) ∧
    ∃ x c', Evaluate
      (Candidate.mk ['a', 'b'] [[Score.fin 0, Score.fin 0], [Score.fin 0, Score.fin 3]])
      ['a', 'b'] = some (Score.fin x, c') ∧ 0 ≤ x := by
  have hstep : Evaluate (Candidate.new ['a', 'b']) ['x', 'b'] = some (Score.fin 3,
      Candidate.mk ['a', 'b'] [[Score.fin 0, Score.fin 0], [Score.fin 0, Score.fin 3]]) := by
    decide
  exact ⟨Reachable.step _ Reachable.fresh hstep,
    C7_evaluate_nonneg ['a', 'b'] ['a', 'b'] _ (Reachable.step _ Reachable.fresh hstep)⟩

/-! ## The reference recurrence reads only the two prefixes -/

theorem align_query_append (Q t N : List Char) : ∀ i j : Nat, i ≤ Q.length →
    align (Q ++ t) N i j = align Q N i j := by
  intro i
  induction i with
  | zero => intro j _; rw [align_zero_left, align_zero_left]
  | succ i ihi =>
    intro j
    induction j with
    | zero => intro _; rw [align_zero_right, align_zero_right]
    | succ j ihj =>
      intro hi
      rw [align_succ, align_succ, ihj hi, ihi (j + 1) (by omega), ihi j (by omega),
        List.getElem?_append_left (show i < Q.length by omega)]

theorem align_name_append (Q N t : List Char) : ∀ i j : Nat, j ≤ N.length →
    align Q (N ++ t) i j = align Q N i j := by
  intro i
  induction i with
  | zero => intro j _; rw [align_zero_left, align_zero_left]
  | succ i ihi =>
    intro j
    induction j with
    | zero => intro _; rw [align_zero_right, align_zero_right]
    | succ j ihj =>
      intro hj
      rw [align_succ, align_succ, ihj (by omega), ihi (j + 1) hj, ihi j (by omega),
        List.getElem?_append_left (show j < N.length by omega)]

theorem IsRowMax_unique {Q N : List Char} {m1 m2 : Int} (h1 : IsRowMax Q N m1)
    (h2 : IsRowMax Q N m2) : m1 = m2 := by
  obtain ⟨⟨j1, a1, b1, e1⟩, u1⟩ := h1
  obtain ⟨⟨j2, a2, b2, e2⟩, u2⟩ := h2
  have x1 := u2 j1 a1 b1
  have x2 := u1 j2 a2 b2
  omega

/-! ## `Evaluate` followed by `GetScore` on a consistent, down-closed table -/

theorem Evaluate_getScore_spec (c : Candidate) (Q : List Char) (hw : WellShaped c)
    (h1 : 1 ≤ Q.length) (h2 : Q.length ≤ c.m_filename.length) (h64 : Q.length < 2 ^ 64)
    (hok : Consistent Q c.m_filename c.m_scoreDp) (hdc : DownClosed c.m_scoreDp) :
    ∃ c' m, Evaluate c Q =
        some (Score.fin (align Q c.m_filename Q.length c.m_filename.length), c') ∧
      GetScore c' Q = some (Score.fin m) ∧ IsRowMax Q c.m_filename m ∧
      c'.m_filename = c.m_filename ∧ WellShaped c' ∧
      Consistent Q c.m_filename c'.m_scoreDp ∧
      ∀ a b, a < Q.length → b < c.m_filename.length → IsSet c'.m_scoreDp a b := by
  obtain ⟨c', h, hn, hw', hc, -, hset⟩ := Evaluate_spec c Q hw h1 h2 hok hdc
  have hrow : ∀ b, b < c'.m_filename.length → IsSet c'.m_scoreDp (Q.length - 1) b :=
    fun b hb => hset _ b (by omega) (by rw [hn] at hb; exact hb)
  obtain ⟨m, hm, hex, hall⟩ := GetScore_filled c' Q hw' (by rw [hn]; exact hc) h1
    (by rw [hn]; exact h2) h64 hrow
  rw [hn] at hex hall
  exact ⟨c', m, h, hm, ⟨hex, hall⟩, hn, hw', hc, hset⟩

theorem Evaluate_fresh_unset_rows (name q : List Char) (v : Score) (c' : Candidate)
    (h : Evaluate (Candidate.new name) q = some (v, c')) (a b : Nat) (s : Score)
    (ha : q.length ≤ a) (hs : readCell c'.m_scoreDp a b = some s) : s = Score.negInf := by
  obtain ⟨-, -, -, ho, -, -⟩ := EvaluateImpl_frame _ _ _ _ _ _ h
  rw [ho a b (Or.inl ha)] at hs
  exact readCell_new name a b s hs

/-! ## Reuse of the memo by a second query -/

theorem evaluateThenGetScore_spec (c : Candidate) (Q : List Char) (hw : WellShaped c)
    (h1 : 1 ≤ Q.length) (h2 : Q.length ≤ c.m_filename.length) (h64 : Q.length < 2 ^ 64)
    (hok : Consistent Q c.m_filename c.m_scoreDp) (hdc : DownClosed c.m_scoreDp) :
    ∃ m, evaluateThenGetScore c Q =
        some (Score.fin (align Q c.m_filename Q.length c.m_filename.length), Score.fin m) ∧
      IsRowMax Q c.m_filename m := by
  obtain ⟨c', m, he, hg, hmax, -⟩ := Evaluate_getScore_spec c Q hw h1 h2 h64 hok hdc
  refine ⟨m, ?_, hmax⟩
  simp only [evaluateThenGetScore, he, hg]

/-- Claim C11 as stated fails: on the name `ab`, after `Evaluate` with the query `x`, the
calls `Evaluate` and `GetScore` with the query `ab` both return `3`, while on a fresh
candidate they both return `6`. -/
theorem C11_stale_memo_counterexample :
    ['x'].length < ['a', 'b'].length ∧ ['a', 'b'].length ≤ ['a', 'b'].length ∧
    (Evaluate (Candidate.new ['a', 'b']) ['x']).bind
      (fun p => evaluateThenGetScore p.2 ['a', 'b']) = some (Score.fin 3, Score.fin 3) ∧
    evaluateThenGetScore (Candidate.new ['a', 'b']) ['a', 'b'] =
      some (Score.fin 6, Score.fin 6) := by
  decide

/-- Claim C11, amended: when the first query `q1` is a proper initial segment of the second
query `q1 ++ t`, which is not longer than the name, then `Evaluate` and `GetScore` with the
second query return the same two values after `Evaluate(q1)` as on a fresh candidate. -/
theorem C11_memo_reuse_initial_segment (name q1 t : List Char) (ht : t ≠ [])
    (hlen : (q1 ++ t).length ≤ name.length) (h64 : (q1 ++ t).length < 2 ^ 64) :
    ∃ v c1 r, Evaluate (Candidate.new name) q1 = some (v, c1) ∧
      evaluateThenGetScore c1 (q1 ++ t) = some r ∧
      evaluateThenGetScore (Candidate.new name) (q1 ++ t) = some r := by
  have hq1 : q1.length ≤ name.length := by
    rw [List.length_append] at hlen; omega
  have h1 : 1 ≤ (q1 ++ t).length := by
    have := List.length_pos.mpr ht
    rw [List.length_append]; omega
  obtain ⟨c1, he1, hc1⟩ := Evaluate_consistent (Candidate.new name) q1 (WellShaped_new name)
    hq1 (Consistent_new q1 name)
  have hn1 : c1.m_filename = name := (EvaluateImpl_frame _ _ _ _ _ _ he1).1
  have hw1 : WellShaped c1 := EvaluateImpl_wellShaped (WellShaped_new name) he1
  have hdc1 : DownClosed c1.m_scoreDp :=
    EvaluateImpl_downClosed _ _ _ _ _ _ (DownClosed_new name) he1
  have hok1 : Consistent (q1 ++ t) c1.m_filename c1.m_scoreDp := by
    rw [hn1]
    intro a b s hs
    rcases hc1 a b s hs with e | ⟨x, e, hx⟩
    · exact Or.inl e
    · right
      refine ⟨x, e, ?_⟩
      have ha : a < q1.length := by
        by_contra hc
        have := Evaluate_fresh_unset_rows name q1 _ c1 he1 a b s (not_lt.mp hc) hs
        rw [e] at this
        exact Score.noConfusion this
      have hx' : x = align q1 name (a + 1) (b + 1) := hx
      show x = align (q1 ++ t) name (a + 1) (b + 1)
      rw [hx', align_query_append q1 t name (a + 1) (b + 1) (by omega)]
  obtain ⟨m1, hr1, hmax1⟩ := evaluateThenGetScore_spec c1 (q1 ++ t) hw1 h1
    (by rw [hn1]; exact hlen) h64 hok1 hdc1
  obtain ⟨m2, hr2, hmax2⟩ := evaluateThenGetScore_spec (Candidate.new name) (q1 ++ t)
    (WellShaped_new name) h1 hlen h64 (Consistent_new _ name) (DownClosed_new name)
  rw [hn1] at hr1 hmax1
  have hm : m1 = m2 := IsRowMax_unique hmax1 hmax2
  rw [hm] at hr1
  exact ⟨_, c1, _, he1, hr1, hr2⟩

/-- Instance of the amended C11 at the name `ab`, first query `a`, second query `ab`. -/
theorem C11_memo_reuse_initial_segment_witness :
    (['b'] ≠ [] ∧ (['a'] ++ ['b']).length ≤ ['a', 'b'].length ∧
      (['a'] ++ ['b']).length < 2 ^ 64) ∧
    ∃ v c1 r, Evaluate (Candidate.new ['a', 'b']) ['a'] = some (v, c1) ∧
      evaluateThenGetScore c1 (['a'] ++ ['b']) = some r ∧
      evaluateThenGetScore (Candidate.new ['a', 'b']) (['a'] ++ ['b']) = some r :=
  ⟨⟨by decide, by decide, by decide⟩,
    C11_memo_reuse_initial_segment ['a', 'b'] ['a'] ['b'] (by decide) (by decide) (by decide)⟩

/-- Claim C12: for `1 ≤ query.length ≤ name.length`, appending characters `t` to the name
does not lower the value of `GetScore(query)` read after `Evaluate(query)` on a fresh
candidate. -/
theorem C12_trailing_characters (name query t : List Char) (h1 : 1 ≤ query.length)
    (h2 : query.length ≤ name.length) (h64 : query.length < 2 ^ 64) :
    ∃ v1 g1 v2 g2,
      evaluateThenGetScore (Candidate.new (name ++ t)) query = some (v1, Score.fin g1) ∧
      evaluateThenGetScore (Candidate.new name) query = some (v2, Score.fin g2) ∧
      g2 ≤ g1 := by
  have h2' : query.length ≤ (name ++ t).length := by rw [List.length_append]; omega
  obtain ⟨g1, hr1, hmax1⟩ := evaluateThenGetScore_spec (Candidate.new (name ++ t)) query
    (WellShaped_new _) h1 h2' h64 (Consistent_new _ _) (DownClosed_new _)
  obtain ⟨g2, hr2, hmax2⟩ := evaluateThenGetScore_spec (Candidate.new name) query
    (WellShaped_new _) h1 h2 h64 (Consistent_new _ _) (DownClosed_new _)
  refine ⟨_, g1, _, g2, hr1, hr2, ?_⟩
  obtain ⟨⟨j, hj1, hj2, hj⟩, -⟩ := hmax2
  have hj2' : j ≤ name.length := hj2
  have hle := hmax1.2 j hj1 (by
    show j ≤ (name ++ t).length
    rw [List.length_append]; omega)
  have e : align query (name ++ t) query.length j = align query name query.length j :=
    align_name_append query name t query.length j hj2'
  have hle' : align query (name ++ t) query.length j ≤ g1 := hle
  have hj' : g2 = align query name query.length j := hj
  omega

/-- Claim C14: on a candidate whose table has the shape given by the constructor, with
arbitrary cell contents, `Evaluate(query)` returns, every cell that held a finite value
before the call holds the same value after it, and a cell whose content changed held the
sentinel before. -/
theorem C14_cell_written_once (c : Candidate) (query : List Char) (hw : WellShaped c) :
    ∃ v c', Evaluate c query = some (v, c') ∧
      ∀ a b, (∀ x, readCell c.m_scoreDp a b = some (Score.fin x) →
          readCell c'.m_scoreDp a b = some (Score.fin x)) ∧
        (readCell c'.m_scoreDp a b ≠ readCell c.m_scoreDp a b →
          readCell c.m_scoreDp a b = some k_lowestScore) := by
  obtain ⟨v, c', h⟩ := Evaluate_returns c query hw
  obtain ⟨-, -, hfs, -, -, -⟩ := EvaluateImpl_frame _ _ _ _ _ _ h
  refine ⟨v, c', h, fun a b => ⟨?_, ?_⟩⟩
  · intro x hx
    rw [hfs a b (by rw [hx]; simp), hx]
  · intro hne
    by_contra hc
    exact hne (hfs a b hc)

theorem readCell_of_mem {m : List (List Score)} {row : List Score} {s : Score}
    (hrow : row ∈ m) (hs : s ∈ row) : ∃ a b, readCell m a b = some s := by
  obtain ⟨a, ha⟩ := List.mem_iff_getElem?.mp hrow
  obtain ⟨b, hb⟩ := List.mem_iff_getElem?.mp hs
  refine ⟨a, b, ?_⟩
  unfold readCell
  rw [ha]
  exact hb

theorem WellShaped_rows {c : Candidate} (hw : WellShaped c) :
    c.m_scoreDp.length = c.m_filename.length ∧
    ∀ row ∈ c.m_scoreDp, row.length = c.m_filename.length := by
  unfold WellShaped shape at hw
  constructor
  · have := congrArg List.length hw
    simpa using this
  · intro row hrow
    have hmem : row.length ∈ c.m_scoreDp.map List.length := List.mem_map_of_mem _ hrow
    rw [hw] at hmem
    exact List.eq_of_mem_replicate hmem

/-- Claim C15: in every state reachable from a fresh candidate for `name` by calls of
`Evaluate`, the name is unchanged, the table has `name.length` rows of `name.length` cells,
and every cell is the sentinel or a finite value that is at least `0`. -/
theorem C15_table_invariant (name : List Char) (c : Candidate) (h : Reachable name c) :
    c.m_filename = name ∧ c.m_scoreDp.length = name.length ∧
    ∀ row ∈ c.m_scoreDp, row.length = name.length ∧
      ∀ s ∈ row, s = k_lowestScore ∨ ∃ x, s = Score.fin x ∧ 0 ≤ x := by
  obtain ⟨hw, hn, hok⟩ := Reachable_inv h
  obtain ⟨hl, hrows⟩ := WellShaped_rows hw
  rw [hn] at hl hrows
  refine ⟨hn, hl, fun row hrow => ⟨hrows row hrow, fun s hs => ?_⟩⟩
  obtain ⟨a, b, hab⟩ := readCell_of_mem hrow hs
  exact hok a b s hab

/-- Claim C16: after `Evaluate(query)` on a fresh candidate, with
`1 ≤ query.length ≤ name.length`, the cell for the prefix lengths `i` and `j` in
`1 .. name.length` holds `align(i, j)` when `i ≤ query.length` and holds the sentinel when
`i > query.length`. -/
theorem C16_lazy_fill (name query : List Char) (h1 : 1 ≤ query.length)
    (h2 : query.length ≤ name.length) :
    ∃ v c', Evaluate (Candidate.new name) query = some (v, c') ∧
      ∀ i j, 1 ≤ i → i ≤ name.length → 1 ≤ j → j ≤ name.length →
        (i ≤ query.length →
          readCell c'.m_scoreDp (i - 1) (j - 1) = some (Score.fin (align query name i j))) ∧
        (query.length < i → readCell c'.m_scoreDp (i - 1) (j - 1) = some k_lowestScore) := by
  obtain ⟨c', h, hn, hw, hc, -, hset⟩ := Evaluate_spec (Candidate.new name) query
    (WellShaped_new name) h1 h2 (Consistent_new query name) (DownClosed_new name)
  have hn' : c'.m_filename = name := hn
  refine ⟨_, c', h, ?_⟩
  intro i j hi1 hi2 hj1 hj2
  constructor
  · intro hiq
    obtain ⟨x, hx⟩ := hset (i - 1) (j - 1) (by omega) (by
      show j - 1 < name.length
      omega)
    rcases hc _ _ _ hx with e | ⟨y, e, hy⟩
    · exact Score.noConfusion e
    · have hy' : y = align query name (i - 1 + 1) (j - 1 + 1) := hy
      have e1 : i - 1 + 1 = i := by omega
      have e2 : j - 1 + 1 = j := by omega
      rw [e1, e2] at hy'
      rw [hx, e, hy']
  · intro hiq
    obtain ⟨s, hs⟩ := WellShaped_read hw (show i - 1 < c'.m_filename.length by rw [hn']; omega)
      (show j - 1 < c'.m_filename.length by rw [hn']; omega)
    have := Evaluate_fresh_unset_rows name query _ c' h (i - 1) (j - 1) s (by omega) hs
    rw [hs, this]
    rfl

/-- Claim C19: when the query is longer than the name or is empty, `Evaluate` returns `0`
and the candidate, with every memo cell, is left as it was; for a query longer than the
name `GetScore` returns the sentinel. -/
theorem C19_evaluate_noop (c : Candidate) (query : List Char)
    (h : c.m_filename.length < query.length ∨ query.length = 0) :
    Evaluate c query = some (Score.fin 0, c) ∧
    (c.m_filename.length < query.length → GetScore c query = some k_lowestScore) := by
  constructor
  · apply EvaluateImpl_guard
    rcases h with h | h
    · exact Or.inl h
    · exact Or.inr (Or.inl (List.length_eq_zero.mp h))
  · intro hlt
    unfold GetScore
    rw [if_pos hlt]

/-! ## When the reference recurrence reaches its upper bound -/

theorem align_eq_three_iff (Q N : List Char) : ∀ i j : Nat,
    align Q N i j = 3 * (i : Int) ↔ i ≤ j ∧ ∀ k, k < i → Q[k]? = N[j - i + k]? := by
  intro i
  induction i with
  | zero =>
    intro j
    rw [align_zero_left]
    constructor
    · intro _
      exact ⟨Nat.zero_le _, fun k hk => absurd hk (Nat.not_lt_zero k)⟩
    · intro _
      rfl
  | succ i ih =>
    intro j
    cases j with
    | zero =>
      rw [align_zero_right]
      constructor
      · intro h; omega
      · intro h; omega
    | succ j =>
      rw [align_succ]
      have a1 := align_le Q N (i + 1) j
      have a2 := align_le Q N i (j + 1)
      have a3 := align_le Q N i j
      have e0 : j + 1 - (i + 1) = j - i := by omega
      by_cases hc : Q[i]? = N[j]?
      · rw [if_pos hc]
        have hiff : (max 0 (max (align Q N (i + 1) j - 2) (max (align Q N i (j + 1) - 2)
            (align Q N i j + 3))) = 3 * ((i + 1 : Nat) : Int)) ↔ align Q N i j = 3 * (i : Int) := by
          constructor
          · intro h; omega
          · intro h; omega
        rw [hiff, ih j, e0]
        constructor
        · rintro ⟨hij, hall⟩
          refine ⟨by omega, fun k hk => ?_⟩
          by_cases hki : k = i
          · subst hki
            have e1 : j - k + k = j := by omega
            rw [e1]; exact hc
          · exact hall k (by omega)
        · rintro ⟨hij, hall⟩
          exact ⟨by omega, fun k hk => hall k (by omega)⟩
      · rw [if_neg hc]
        constructor
        · intro h; omega
        · rintro ⟨hij, hall⟩
          have := hall i (by omega)
          rw [e0] at this
          have e1 : j - i + i = j := by omega
          rw [e1] at this
          exact absurd this hc

theorem occurs_iff (Q N : List Char) (h1 : 1 ≤ Q.length) :
    (∃ j, 1 ≤ j ∧ j ≤ N.length ∧ Q.length ≤ j ∧ ∀ k, k < Q.length → Q[k]? = N[j - Q.length + k]?) ↔
      ∃ s t, N = s ++ Q ++ t := by
  constructor
  · rintro ⟨j, -, hj2, hqj, hall⟩
    refine ⟨N.take (j - Q.length), N.drop j, ?_⟩
    have hQ : Q = (N.drop (j - Q.length)).take Q.length := by
      apply List.ext_getElem?
      intro k
      by_cases hk : k < Q.length
      · rw [List.getElem?_take_of_lt hk, List.getElem?_drop]
        exact hall k hk
      · rw [List.getElem?_eq_none (show Q.length ≤ k by omega),
          List.getElem?_eq_none (by simp; omega)]
    have e1 : N = N.take (j - Q.length) ++ N.drop (j - Q.length) :=
      (List.take_append_drop _ _).symm
    have e2 : N.drop (j - Q.length) =
        (N.drop (j - Q.length)).take Q.length ++ (N.drop (j - Q.length)).drop Q.length :=
      (List.take_append_drop _ _).symm
    have e3 : (N.drop (j - Q.length)).drop Q.length = N.drop j := by
      rw [List.drop_drop]
      congr 1
      omega
    rw [e3, ← hQ] at e2
    rw [List.append_assoc, ← e2]
    exact e1
  · rintro ⟨s, t, hN⟩
    refine ⟨s.length + Q.length, by omega, ?_, by omega, ?_⟩
    · rw [hN]; simp only [List.length_append]; omega
    · intro k hk
      have e1 : s.length + Q.length - Q.length + k = s.length + k := by omega
      rw [e1, hN, List.append_assoc,
        List.getElem?_append_right (show s.length ≤ s.length + k by omega)]
      have e2 : s.length + k - s.length = k := by omega
      rw [e2, List.getElem?_append_left hk]

/-- Claim C17: on a fresh candidate `Evaluate(query)` returns a value that is at most
`3 * min(query.length, name.length)`; for `1 ≤ query.length ≤ name.length` the following
`GetScore(query)` is at most `3 * query.length`, and it is equal to `3 * query.length`
exactly when the query occurs in the name as a block of consecutive characters. -/
theorem C17_score_upper_bound (name query : List Char) (h64 : query.length < 2 ^ 64) :
    (∃ x c', Evaluate (Candidate.new name) query = some (Score.fin x, c') ∧
      x ≤ 3 * ((min query.length name.length : Nat) : Int)) ∧
    (1 ≤ query.length → query.length ≤ name.length →
      ∃ v g, evaluateThenGetScore (Candidate.new name) query = some (v, Score.fin g) ∧
        g ≤ 3 * (query.length : Int) ∧
        (g = 3 * (query.length : Int) ↔ ∃ s t, name = s ++ query ++ t)) := by
  constructor
  · by_cases hlen : name.length < query.length
    · refine ⟨0, _, EvaluateImpl_guard _ (Candidate.new name) query name (Or.inl hlen), ?_⟩
      omega
    · obtain ⟨c', h, -⟩ := Evaluate_consistent (Candidate.new name) query (WellShaped_new name)
        (not_lt.mp hlen) (Consistent_new query name)
      refine ⟨_, c', h, ?_⟩
      have hb := align_le query name query.length name.length
      have hb' : align query (Candidate.new name).m_filename query.length
          (Candidate.new name).m_filename.length = align query name query.length name.length :=
        rfl
      rw [hb']
      rcases Nat.le_total query.length name.length with hle | hle
      · rw [Nat.min_eq_left hle]; exact hb.1
      · rw [Nat.min_eq_right hle]; exact hb.2
  · intro h1 h2
    obtain ⟨g, hr, ⟨j0, hj1, hj2, hj0⟩, hall⟩ := evaluateThenGetScore_spec (Candidate.new name)
      query (WellShaped_new name) h1 h2 h64 (Consistent_new query name) (DownClosed_new name)
    have hj2' : j0 ≤ name.length := hj2
    have hj0' : g = align query name query.length j0 := hj0
    have hall' : ∀ j, 1 ≤ j → j ≤ name.length → align query name query.length j ≤ g := hall
    refine ⟨_, g, hr, ?_, ?_⟩
    · rw [hj0']; exact (align_le query name query.length j0).1
    · rw [← occurs_iff query name h1]
      constructor
      · intro hg
        rw [hj0'] at hg
        obtain ⟨hq, hk⟩ := (align_eq_three_iff query name query.length j0).mp hg
        exact ⟨j0, hj1, hj2', hq, hk⟩
      · rintro ⟨j, hj1', hj2'', hq, hk⟩
        have heq := (align_eq_three_iff query name query.length j).mpr ⟨hq, hk⟩
        have hle := hall' j hj1' hj2''
        have hub := (align_le query name query.length j0).1
        omega

/-- Instance of C17 at the name `xab` and the query `ab`. -/
theorem C17_score_upper_bound_witness :
    (['a', 'b'].length < 2 ^ 64 ∧ 1 ≤ ['a', 'b'].length ∧
      ['a', 'b'].length ≤ ['x', 'a', 'b'].length) ∧
    (∃ x c', Evaluate (Candidate.new ['x', 'a', 'b']) ['a', 'b'] = some (Score.fin x, c') ∧
      x ≤ 3 * ((min ['a', 'b'].length ['x', 'a', 'b'].length : Nat) : Int)) ∧
    ∃ v g, evaluateThenGetScore (Candidate.new ['x', 'a', 'b']) ['a', 'b'] =
        some (v, Score.fin g) ∧
      g ≤ 3 * (['a', 'b'].length : Int) ∧
      (g = 3 * (['a', 'b'].length : Int) ↔ ∃ s t, ['x', 'a', 'b'] = s ++ ['a', 'b'] ++ t) :=
  ⟨⟨by decide, by decide, by decide⟩,
    (C17_score_upper_bound ['x', 'a', 'b'] ['a', 'b'] (by decide)).1,
    (C17_score_upper_bound ['x', 'a', 'b'] ['a', 'b'] (by decide)).2 (by decide) (by decide)⟩

/-! ## Index safety and termination -/

theorem EvaluateImplLog_snd : ∀ (fuel : Nat) (c : Candidate) (q f : List Char),
    (EvaluateImplLog fuel c q f).2 = EvaluateImpl fuel c q f := by
  intro fuel
  induction fuel with
  | zero => intro c q f; rfl
  | succ fuel ih =>
    intro c q f
    rw [EvaluateImplLog, EvaluateImpl]
    split
    · rfl
    · cases hr : readCell c.m_scoreDp (q.length - 1) (f.length - 1) with
      | none => rfl
      | some dp =>
        simp only
        split
        · rfl
        · have e1 := ih c q f.dropLast
          cases h1 : EvaluateImplLog fuel c q f.dropLast with
          | mk l1 o1 =>
            rw [h1] at e1
            simp only at e1
            rw [← e1]
            cases o1 with
            | none => rfl
            | some p1 =>
              obtain ⟨r1, c1⟩ := p1
              simp only
              have e2 := ih c1 q.dropLast f
              cases h2 : EvaluateImplLog fuel c1 q.dropLast f with
              | mk l2 o2 =>
                rw [h2] at e2
                simp only at e2
                rw [← e2]
                cases o2 with
                | none => rfl
                | some p2 =>
                  obtain ⟨r2, c2⟩ := p2
                  simp only
                  have e3 := ih c2 q.dropLast f.dropLast
                  cases h3 : EvaluateImplLog fuel c2 q.dropLast f.dropLast with
                  | mk l3 o3 =>
                    rw [h3] at e3
                    simp only at e3
                    rw [← e3]
                    cases o3 with
                    | none => rfl
                    | some p3 =>
                      obtain ⟨r3, c3⟩ := p3
                      rfl

theorem EvaluateImplLog_name {fuel : Nat} {c c1 : Candidate} {q f : List Char}
    {l : List (Nat × Nat)} {r : Score} (h : EvaluateImplLog fuel c q f = (l, some (r, c1))) :
    c1.m_filename = c.m_filename := by
  have e := EvaluateImplLog_snd fuel c q f
  rw [h] at e
  exact (EvaluateImpl_frame _ _ _ _ _ _ e.symm).1

theorem EvaluateImplLog_bounds : ∀ (fuel : Nat) (c : Candidate) (q f : List Char),
    f.length ≤ c.m_filename.length →
    ∀ p ∈ (EvaluateImplLog fuel c q f).1,
      p.1 < c.m_filename.length ∧ p.2 < c.m_filename.length := by
  intro fuel
  induction fuel with
  | zero => intro c q f _ p hp; simp [EvaluateImplLog] at hp
  | succ fuel ih =>
    intro c q f hf p hp
    rw [EvaluateImplLog] at hp
    split at hp
    · simp at hp
    · rename_i hg
      have hg' : ¬ (c.m_filename.length < q.length ∨ q = [] ∨ f = []) := by
        simpa [List.isEmpty_iff] using hg
      have hq : q ≠ [] := fun e => hg' (Or.inr (Or.inl e))
      have hfne : f ≠ [] := fun e => hg' (Or.inr (Or.inr e))
      have hql : 0 < q.length := List.length_pos.mpr hq
      have hfl : 0 < f.length := List.length_pos.mpr hfne
      have hqn : q.length ≤ c.m_filename.length := by
        by_contra hc; exact hg' (Or.inl (not_le.mp hc))
      have hidx : q.length - 1 < c.m_filename.length ∧ f.length - 1 < c.m_filename.length :=
        ⟨by omega, by omega⟩
      have hd : f.dropLast.length ≤ c.m_filename.length := by
        rw [List.length_dropLast]; omega
      cases hr : readCell c.m_scoreDp (q.length - 1) (f.length - 1) with
      | none =>
        rw [hr] at hp
        simp only [List.mem_singleton] at hp
        rw [hp]; exact hidx
      | some dp =>
        rw [hr] at hp
        simp only at hp
        split at hp
        · simp only [List.mem_singleton] at hp
          rw [hp]; exact hidx
        · have b1 := ih c q f.dropLast hd
          cases h1 : EvaluateImplLog fuel c q f.dropLast with
          | mk l1 o1 =>
            rw [h1] at hp b1
            simp only at b1
            cases o1 with
            | none =>
              simp only [List.mem_cons] at hp
              rcases hp with e | e
              · rw [e]; exact hidx
              · exact b1 p e
            | some p1 =>
              obtain ⟨r1, c1⟩ := p1
              simp only at hp
              have n1 := EvaluateImplLog_name h1
              have b2 := ih c1 q.dropLast f (by rw [n1]; exact hf)
              rw [n1] at b2
              cases h2 : EvaluateImplLog fuel c1 q.dropLast f with
              | mk l2 o2 =>
                rw [h2] at hp b2
                simp only at b2
                cases o2 with
                | none =>
                  simp only [List.mem_cons, List.mem_append] at hp
                  rcases hp with e | e | e
                  · rw [e]; exact hidx
                  · exact b1 p e
                  · exact b2 p e
                | some p2 =>
                  obtain ⟨r2, c2⟩ := p2
                  simp only at hp
                  have n2 := EvaluateImplLog_name h2
                  have b3 := ih c2 q.dropLast f.dropLast (by rw [n2, n1]; exact hd)
                  rw [n2, n1] at b3
                  cases h3 : EvaluateImplLog fuel c2 q.dropLast f.dropLast with
                  | mk l3 o3 =>
                    rw [h3] at hp b3
                    simp only at b3
                    have hmem : p = (q.length - 1, f.length - 1) ∨ p ∈ l1 ∨ p ∈ l2 ∨ p ∈ l3 := by
                      cases o3 with
                      | none =>
                        simp only [List.mem_cons, List.mem_append] at hp
                        tauto
                      | some p3 =>
                        simp only [List.mem_cons, List.mem_append] at hp
                        tauto
                    rcases hmem with e | e | e | e
                    · rw [e]; exact hidx
                    · exact b1 p e
                    · exact b2 p e
                    · exact b3 p e

theorem EvaluateImpl_fuel_succ : ∀ (fuel : Nat) (c : Candidate) (q f : List Char)
    (r : Score × Candidate), EvaluateImpl fuel c q f = some r →
    EvaluateImpl (fuel + 1) c q f = some r := by
  intro fuel
  induction fuel with
  | zero => intro c q f r h; simp [EvaluateImpl] at h
  | succ fuel ih =>
    intro c q f r h
    obtain ⟨v, c'⟩ := r
    rcases EvaluateImpl_inv h with ⟨hg, hv, hc⟩ | ⟨hg, hr, hv, hc⟩ |
      ⟨hg, hr, r1, c1, r2, c2, r3, c3, h1, h2, h3, hv, hc⟩
    · rw [hv, hc]; exact EvaluateImpl_guard _ c q f hg
    · rw [hc]; exact EvaluateImpl_hit _ hg hr hv
    · rw [hv, hc]
      rw [← hv]
      have := EvaluateImpl_miss hg hr (ih _ _ _ _ h1) (ih _ _ _ _ h2) (ih _ _ _ _ h3)
      rw [this, hv]

theorem EvaluateImpl_fuel_le {fuel fuel' : Nat} {c : Candidate} {q f : List Char}
    {r : Score × Candidate} (h : EvaluateImpl fuel c q f = some r) (hle : fuel ≤ fuel') :
    EvaluateImpl fuel' c q f = some r := by
  induction hle with
  | refl => exact h
  | step _ ih => exact EvaluateImpl_fuel_succ _ _ _ _ _ ih

/-- Claim C18: in every state reachable from a fresh candidate for `name`, and for every
query, each access to `m_scoreDp` made during `Evaluate(query)` has its row index and its
column index below `name.length`, the table has `name.length` rows of `name.length` cells,
and the call returns; more fuel than the sum of the two lengths does not change the
result. -/
theorem C18_index_safety (name query : List Char) (c : Candidate) (h : Reachable name c) :
    (∀ p ∈ (EvaluateLog c query).1, p.1 < name.length ∧ p.2 < name.length) ∧
    c.m_scoreDp.length = name.length ∧ (∀ row ∈ c.m_scoreDp, row.length = name.length) ∧
    ∃ v c', Evaluate c query = some (v, c') ∧ (EvaluateLog c query).2 = some (v, c') ∧
      ∀ fuel, query.length + name.length + 1 ≤ fuel →
        EvaluateImpl fuel c query c.m_filename = some (v, c') := by
  obtain ⟨hw, hn, -⟩ := Reachable_inv h
  obtain ⟨hl, hrows⟩ := WellShaped_rows hw
  obtain ⟨v, c', he⟩ := Evaluate_returns c query hw
  have hb := EvaluateImplLog_bounds (query.length + c.m_filename.length + 1) c query
    c.m_filename (le_refl _)
  rw [hn] at hl hrows
  refine ⟨?_, hl, hrows, v, c', he, ?_, ?_⟩
  · intro p hp
    have := hb p hp
    rw [hn] at this
    exact this
  · unfold EvaluateLog
    rw [EvaluateImplLog_snd]
    exact he
  · intro fuel hfuel
    exact EvaluateImpl_fuel_le he (by rw [hn]; exact hfuel)

/-! ## The loop over `PATH` -/

theorem find_none {s : List Char} {ch : Char} (h : find s ch = none) : ∀ x ∈ s, x ≠ ch := by
  induction s with
  | nil => intro x hx; exact absurd hx (List.not_mem_nil x)
  | cons c cs ih =>
    rw [find] at h
    by_cases hc : c = ch
    · rw [if_pos hc] at h; exact Option.noConfusion h
    · rw [if_neg hc] at h
      cases hf : find cs ch with
      | none =>
        intro x hx
        rcases List.mem_cons.mp hx with e | e
        · rw [e]; exact hc
        · exact ih hf x e
      | some k => rw [hf] at h; exact Option.noConfusion h

theorem find_some {s : List Char} {ch : Char} {d : Nat} (h : find s ch = some d) :
    (∀ x ∈ s.take d, x ≠ ch) ∧ s = s.take d ++ ch :: s.drop (d + 1) := by
  induction s generalizing d with
  | nil => rw [find] at h; exact Option.noConfusion h
  | cons c cs ih =>
    rw [find] at h
    by_cases hc : c = ch
    · rw [if_pos hc] at h
      have hd : d = 0 := (Option.some.inj h).symm
      subst hd
      subst hc
      exact ⟨fun x hx => absurd hx (by simp), by simp⟩
    · rw [if_neg hc] at h
      cases hf : find cs ch with
      | none => rw [hf] at h; exact Option.noConfusion h
      | some k =>
        rw [hf] at h
        have hd : d = k + 1 := (Option.some.inj h).symm
        subst hd
        obtain ⟨h1, h2⟩ := ih hf
        constructor
        · intro x hx
          rw [List.take_succ_cons] at hx
          rcases List.mem_cons.mp hx with e | e
          · rw [e]; exact hc
          · exact h1 x e
        · rw [List.take_succ_cons, List.drop_succ_cons, List.cons_append, ← h2]

theorem pathLoop_spec : ∀ (fuel : Nat) (P : List Char) (paths : List (List Char)),
    P.length < fuel → pathLoop fuel P paths = some (paths ++ nonEmptySegments P) := by
  intro fuel
  induction fuel with
  | zero => intro P paths h; omega
  | succ fuel ih =>
    intro P paths hfuel
    rw [pathLoop]
    by_cases hP : P = []
    · subst hP
      simp [nonEmptySegments]
    · have hne : P.isEmpty = false := by simpa [List.isEmpty_iff] using hP
      rw [if_neg (by rw [hne]; exact Bool.false_ne_true)]
      cases hf : find P ':' with
      | none =>
        have hsplit : P.splitOn ':' = [P] := by
          unfold List.splitOn
          apply List.splitOnP_eq_single
          intro x hx
          simpa using find_none hf x hx
        simp [nonEmptySegments, hsplit, hne]
      | some d =>
        obtain ⟨hseg, hPeq⟩ := find_some hf
        have hsplit : P.splitOn ':' = P.take d :: (P.drop (d + 1)).splitOn ':' := by
          unfold List.splitOn
          conv_lhs => rw [hPeq]
          apply List.splitOnP_first
          · intro x hx
            simpa using hseg x hx
          · simp
        have hlen : (P.drop (d + 1)).length < fuel := by
          have := congrArg List.length hPeq
          simp only [List.length_append, List.length_cons] at this
          omega
        simp only
        rw [ih _ _ hlen]
        unfold nonEmptySegments
        rw [hsplit, List.filter_cons]
        by_cases hempty : (P.take d).isEmpty = true
        · simp [hempty]
        · simp [hempty]

/-- Claim C20: for every string `P` and every list `paths` built before the loop, the loop
of `main` over `PATH` terminates and returns `paths` followed by the non-empty segments of
`P` between the `:` characters, in left-to-right order. -/
theorem C20_path_splitting (P : List Char) (paths : List (List Char)) :
    splitPATH P paths = some (paths ++ nonEmptySegments P) :=
  pathLoop_spec _ P paths (Nat.lt_succ_self _)

/-! ## The ranking example -/

theorem perm_three {α : Type} (a b c : α) (l : List α) (h : l.Perm [a, b, c]) :
    l ∈ [[a, b, c], [a, c, b], [b, a, c], [b, c, a], [c, a, b], [c, b, a]] := by
  have hmem := List.mem_permutations.mpr h
  have hp : [a, b, c].permutations =
      [[a, b, c], [b, a, c], [c, b, a], [b, c, a], [c, a, b], [a, c, b]] := by
    simp [List.permutations, List.permutationsAux_cons, List.permutationsAux_nil,
      List.permutationsAux2]
  rw [hp] at hmem
  simp only [List.mem_cons, List.mem_singleton, List.not_mem_nil, or_false] at hmem ⊢
  tauto

theorem rank_example_orders :
    ∀ names ∈ ([[['t', 'e', 's', 't', '.', 't', 'x', 't'], ['t', 'e', 's', 't', 'i', 'n', 'g'],
          ['o', 't', 'h', 'e', 'r']],
        [['t', 'e', 's', 't', '.', 't', 'x', 't'], ['o', 't', 'h', 'e', 'r'],
          ['t', 'e', 's', 't', 'i', 'n', 'g']],
        [['t', 'e', 's', 't', 'i', 'n', 'g'], ['t', 'e', 's', 't', '.', 't', 'x', 't'],
          ['o', 't', 'h', 'e', 'r']],
        [['t', 'e', 's', 't', 'i', 'n', 'g'], ['o', 't', 'h', 'e', 'r'],
          ['t', 'e', 's', 't', '.', 't', 'x', 't']],
        [['o', 't', 'h', 'e', 'r'], ['t', 'e', 's', 't', '.', 't', 'x', 't'],
          ['t', 'e', 's', 't', 'i', 'n', 'g']],
        [['o', 't', 'h', 'e', 'r'], ['t', 'e', 's', 't', 'i', 'n', 'g'],
          ['t', 'e', 's', 't', '.', 't', 'x', 't']]] : List (List (List Char))),
      (rank ['t', 'e', 's', 't'] (names.map Candidate.new)).map
          (fun out => out.map (fun c => (c.m_filename, GetScore c ['t', 'e', 's', 't']))) =
        some ((names.filter (fun n => decide (n ≠ ['o', 't', 'h', 'e', 'r']))).map
            (fun n => (n, some (Score.fin 12))) ++
          [(['o', 't', 'h', 'e', 'r'], some (Score.fin 3))]) := by
  decide

/-- Claim C13: for fresh candidates named `test.txt`, `testing` and `other`, in any input
order, and the query `test`, the ranking pipeline returns the two names other than `other`
first, in their input order and each with `GetScore` equal to `12`, and `other` last, with
`GetScore` equal to `3`. -/
theorem C13_ranking_example (names : List (List Char))
    (h : names.Perm [['t', 'e', 's', 't', '.', 't', 'x', 't'],
      ['t', 'e', 's', 't', 'i', 'n', 'g'], ['o', 't', 'h', 'e', 'r']]) :
    ∃ out, rank ['t', 'e', 's', 't'] (names.map Candidate.new) = some out ∧
      out.map (fun c => (c.m_filename, GetScore c ['t', 'e', 's', 't'])) =
        (names.filter (fun n => decide (n ≠ ['o', 't', 'h', 'e', 'r']))).map
            (fun n => (n, some (Score.fin 12))) ++
          [(['o', 't', 'h', 'e', 'r'], some (Score.fin 3))] := by
  have hk := rank_example_orders names (perm_three _ _ _ names h)
  cases hr : rank ['t', 'e', 's', 't'] (names.map Candidate.new) with
  | none => rw [hr] at hk; exact Option.noConfusion hk
  | some out =>
    rw [hr] at hk
    exact ⟨out, rfl, Option.some.inj hk⟩

/-- Instance of C13 at the input order `other`, `testing`, `test.txt`. -/
theorem C13_ranking_example_witness :
    [['o', 't', 'h', 'e', 'r'], ['t', 'e', 's', 't', 'i', 'n', 'g'],
        ['t', 'e', 's', 't', '.', 't', 'x', 't']].Perm
      [['t', 'e', 's', 't', '.', 't', 'x', 't'], ['t', 'e', 's', 't', 'i', 'n', 'g'],
        ['o', 't', 'h', 'e', 'r']] ∧
    ∃ out, rank ['t', 'e', 's', 't']
        ([['o', 't', 'h', 'e', 'r'], ['t', 'e', 's', 't', 'i', 'n', 'g'],
          ['t', 'e', 's', 't', '.', 't', 'x', 't']].map Candidate.new) = some out ∧
      out.map (fun c => (c.m_filename, GetScore c ['t', 'e', 's', 't'])) =
        [(['t', 'e', 's', 't', 'i', 'n', 'g'], some (Score.fin 12)),
          (['t', 'e', 's', 't', '.', 't', 'x', 't'], some (Score.fin 12)),
          (['o', 't', 'h', 'e', 'r'], some (Score.fin 3))] :=
  ⟨by decide, C13_ranking_example _ (by decide)⟩

/-! ## Further instances at concrete inputs -/

/-- Instance of C12 at the name `ab`, the appended characters `c` and the query `ab`. -/
theorem C12_trailing_characters_witness :
    (1 ≤ ['a', 'b'].length ∧ ['a', 'b'].length ≤ ['a', 'b'].length ∧
      ['a', 'b'].length < 2 ^ 64) ∧
    ∃ v1 g1 v2 g2,
      evaluateThenGetScore (Candidate.new (['a', 'b'] ++ ['c'])) ['a', 'b'] =
        some (v1, Score.fin g1) ∧
      evaluateThenGetScore (Candidate.new ['a', 'b']) ['a', 'b'] = some (v2, Score.fin g2) ∧
      g2 ≤ g1 :=
  ⟨⟨by decide, by decide, by decide⟩,
    C12_trailing_characters ['a', 'b'] ['a', 'b'] ['c'] (by decide) (by decide) (by decide)⟩

/-- Instance of C14 at a table for the name `ab` whose first row is set, and the query
`ab`. -/
theorem C14_cell_written_once_witness :
    WellShaped (Candidate.mk ['a', 'b']
      [[Score.fin 0, Score.fin 0], [Score.negInf, Score.negInf]]) ∧
    ∃ v c', Evaluate (Candidate.mk ['a', 'b']
        [[Score.fin 0, Score.fin 0], [Score.negInf, Score.negInf]]) ['a', 'b'] = some (v, c') ∧
      ∀ a b, (∀ x, readCell (Candidate.mk ['a', 'b']
            [[Score.fin 0, Score.fin 0], [Score.negInf, Score.negInf]]).m_scoreDp a b =
              some (Score.fin x) →
          readCell c'.m_scoreDp a b = some (Score.fin x)) ∧
        (readCell c'.m_scoreDp a b ≠ readCell (Candidate.mk ['a', 'b']
            [[Score.fin 0, Score.fin 0], [Score.negInf, Score.negInf]]).m_scoreDp a b →
          readCell (Candidate.mk ['a', 'b']
            [[Score.fin 0, Score.fin 0], [Score.negInf, Score.negInf]]).m_scoreDp a b =
              some k_lowestScore) := by
  have hw : WellShaped (Candidate.mk ['a', 'b']
      [[Score.fin 0, Score.fin 0], [Score.negInf, Score.negInf]]) := by
    unfold WellShaped
    decide
  exact ⟨hw, C14_cell_written_once _ ['a', 'b'] hw⟩

/-- Instance of C15 at the state of the candidate `ab` after `Evaluate` with the query
`xb`. -/
theorem C15_table_invariant_witness :
    Reachable ['a', 'b']
      (Candidate.mk ['a', 'b'] [[Score.fin 0, Score.fin 0], [Score.fin 0, Score.fin 3]]) ∧
    (Candidate.mk ['a', 'b']
        [[Score.fin 0, Score.fin 0], [Score.fin 0, Score.fin 3]]).m_filename = ['a', 'b'] ∧
    (Candidate.mk ['a', 'b']
        [[Score.fin 0, Score.fin 0], [Score.fin 0, Score.fin 3]]).m_scoreDp.length =
      ['a', 'b'].length ∧
    ∀ row ∈ (Candidate.mk ['a', 'b']
        [[Score.fin 0, Score.fin 0], [Score.fin 0, Score.fin 3]]).m_scoreDp,
      row.length = ['a', 'b'].length ∧
      ∀ s ∈ row, s = k_lowestScore ∨ ∃ x, s = Score.fin x ∧ 0 ≤ x := by
  have hstep : Evaluate (Candidate.new ['a', 'b']) ['x', 'b'] = some (Score.fin 3,
      Candidate.mk ['a', 'b'] [[Score.fin 0, Score.fin 0], [Score.fin 0, Score.fin 3]]) := by
    decide
  exact ⟨Reachable.step _ Reachable.fresh hstep,
    C15_table_invariant ['a', 'b'] _ (Reachable.step _ Reachable.fresh hstep)⟩

/-- Instance of C16 at the name `abc` and the query `ab`. -/
theorem C16_lazy_fill_witness :
    (1 ≤ ['a', 'b'].length ∧ ['a', 'b'].length ≤ ['a', 'b', 'c'].length) ∧
    ∃ v c', Evaluate (Candidate.new ['a', 'b', 'c']) ['a', 'b'] = some (v, c') ∧
      ∀ i j, 1 ≤ i → i ≤ ['a', 'b', 'c'].length → 1 ≤ j → j ≤ ['a', 'b', 'c'].length →
        (i ≤ ['a', 'b'].length →
          readCell c'.m_scoreDp (i - 1) (j - 1) =
            some (Score.fin (align ['a', 'b'] ['a', 'b', 'c'] i j))) ∧
        (['a', 'b'].length < i →
          readCell c'.m_scoreDp (i - 1) (j - 1) = some k_lowestScore) :=
  ⟨⟨by decide, by decide⟩, C16_lazy_fill ['a', 'b', 'c'] ['a', 'b'] (by decide) (by decide)⟩

/-- Instance of C18 at the state of the candidate `ab` after `Evaluate` with the query `a`,
and the query `abc`, which is longer than the name. -/
theorem C18_index_safety_witness :
    Reachable ['a', 'b']
      (Candidate.mk ['a', 'b'] [[Score.fin 3, Score.fin 1], [Score.negInf, Score.negInf]]) ∧
    ((∀ p ∈ (EvaluateLog (Candidate.mk ['a', 'b']
          [[Score.fin 3, Score.fin 1], [Score.negInf, Score.negInf]]) ['a', 'b', 'c']).1,
        p.1 < ['a', 'b'].length ∧ p.2 < ['a', 'b'].length) ∧
      (Candidate.mk ['a', 'b']
          [[Score.fin 3, Score.fin 1], [Score.negInf, Score.negInf]]).m_scoreDp.length =
        ['a', 'b'].length ∧
      (∀ row ∈ (Candidate.mk ['a', 'b']
          [[Score.fin 3, Score.fin 1], [Score.negInf, Score.negInf]]).m_scoreDp,
        row.length = ['a', 'b'].length) ∧
      ∃ v c', Evaluate (Candidate.mk ['a', 'b']
            [[Score.fin 3, Score.fin 1], [Score.negInf, Score.negInf]]) ['a', 'b', 'c'] =
          some (v, c') ∧
        (EvaluateLog (Candidate.mk ['a', 'b']
            [[Score.fin 3, Score.fin 1], [Score.negInf, Score.negInf]]) ['a', 'b', 'c']).2 =
          some (v, c') ∧
        ∀ fuel, ['a', 'b', 'c'].length + ['a', 'b'].length + 1 ≤ fuel →
          EvaluateImpl fuel (Candidate.mk ['a', 'b']
              [[Score.fin 3, Score.fin 1], [Score.negInf, Score.negInf]]) ['a', 'b', 'c']
            (Candidate.mk ['a', 'b']
              [[Score.fin 3, Score.fin 1], [Score.negInf, Score.negInf]]).m_filename =
            some (v, c')) := by
  have hstep : Evaluate (Candidate.new ['a', 'b']) ['a'] = some (Score.fin 1,
      Candidate.mk ['a', 'b'] [[Score.fin 3, Score.fin 1], [Score.negInf, Score.negInf]]) := by
    decide
  exact ⟨Reachable.step _ Reachable.fresh hstep,
    C18_index_safety ['a', 'b'] ['a', 'b', 'c'] _ (Reachable.step _ Reachable.fresh hstep)⟩

/-- Instance of C19 at a fresh candidate named `a` and the query `ab`. -/
theorem C19_evaluate_noop_witness :
    ((Candidate.new ['a']).m_filename.length < ['a', 'b'].length ∨ ['a', 'b'].length = 0) ∧
    Evaluate (Candidate.new ['a']) ['a', 'b'] = some (Score.fin 0, Candidate.new ['a']) ∧
    GetScore (Candidate.new ['a']) ['a', 'b'] = some k_lowestScore :=
  ⟨by decide, (C19_evaluate_noop (Candidate.new ['a']) ['a', 'b'] (by decide)).1,
    (C19_evaluate_noop (Candidate.new ['a']) ['a', 'b'] (by decide)).2 (by decide)⟩

end Fo
